import Mathlib

/-
Verification development for the capped-index-weight computation of
va-report-watcher (workers/indexes/index_calcs.py and
workers/kaxcap-factset/kaxcap_calcs.py).

Python floats are modelled by exact rationals; pandas DataFrames by lists
of row records plus per-table column-presence flags; Python dicts keyed by
issuer name by association lists (insertion order preserved, lookup takes
the binding of the key); `sorted` by a stable insertion sort; fallible
column subscripts (`d["col"]`) by an `Except` monad, while `d.get("col", v)`
accesses are total.
-/

namespace VaReport

/-- Python `str.upper()` (over the characters of the string; the region
codes and tickers involved are plain ASCII). -/
def upper (s : String) : String := String.mk (s.data.map Char.toUpper)

/-- Association list from issuer name to a rational, modelling the Python
dicts `fixed`, `t` and `final_issuer_w`. -/
abbrev Weights := List (String × ℚ)

def keysOf (m : Weights) : List String := m.map Prod.fst

/-- Python `dict.get`: the value bound to `k`, if any. -/
def lookup : Weights → String → Option ℚ
  | [], _ => none
  | p :: t, k => if p.1 = k then some p.2 else lookup t k

/-- `sum(m.values())`. -/
def sumVals (m : Weights) : ℚ := (m.map Prod.snd).sum

def keysNodup (m : Weights) : Prop := (keysOf m).Nodup

/-- Python `m[k] = v`: replace the binding of `k` if present, else append
a new binding (dicts preserve insertion order). -/
def dinsert (m : Weights) (k : String) (v : ℚ) : Weights :=
  if (lookup m k).isSome then m.map (fun p => if p.1 = k then (k, v) else p)
  else m ++ [(k, v)]

/-- List filtering with a decidable proposition, used to model the Python
comprehensions over `t.items()`. -/
def filterW (p : String × ℚ → Prop) [DecidablePred p] : Weights → Weights
  | [] => []
  | x :: l => if p x then x :: filterW p l else filterW p l

/-- First element satisfying a decidable proposition, modelling the
`for ...: if ...: chosen = ...; break` scan. -/
def findFirst (p : String × ℚ → Prop) [DecidablePred p] : Weights → Option (String × ℚ)
  | [] => none
  | x :: l => if p x then some x else findFirst p l

/-- Ascending comparison on tentative-weight entries, the sort key
`lambda kv: kv[1]` of the daily variant. -/
def wLE (a b : String × ℚ) : Prop := a.2 ≤ b.2

/-- Descending comparison, the `reverse=True` sort of the quarterly
variant and the `ascending=False` sorts on market caps. -/
def wGE (a b : String × ℚ) : Prop := b.2 ≤ a.2

instance : DecidableRel wLE := fun a b => inferInstanceAs (Decidable (a.2 ≤ b.2))

instance : DecidableRel wGE := fun a b => inferInstanceAs (Decidable (b.2 ≤ a.2))

instance : IsTotal (String × ℚ) wLE := ⟨fun a b => le_total a.2 b.2⟩

instance : IsTrans (String × ℚ) wLE := ⟨fun _ _ _ h1 h2 => le_trans h1 h2⟩

instance : IsTotal (String × ℚ) wGE := ⟨fun a b => le_total b.2 a.2⟩

instance : IsTrans (String × ℚ) wGE := ⟨fun _ _ _ h1 h2 => le_trans h2 h1⟩

/-- `free["initWeight_uncapped"].sum()`: total initial weight of the
issuers of `init` that carry no binding in `fixed`. -/
def freeTotalRaw (init fixed : Weights) : ℚ :=
  ((filterW (fun p => lookup fixed p.1 = none) init).map Prod.snd).sum

/-- The inner `tentative_weights()` closure shared verbatim by
`_apply_daily_capping` and `_apply_quarterly_exceptions`: every fixed
issuer keeps its pinned value, the rest split `max(0, 1 - sum(fixed))`
pro-rata by initial weight; a zero free total is replaced by `1.0`
(`free_total = ... or 1.0`). -/
def tentative (init fixed : Weights) : Weights :=
  let remaining : ℚ := max 0 (1 - sumVals fixed)
  let ftRaw := freeTotalRaw init fixed
  let ft := if ftRaw = 0 then 1 else ftRaw
  init.map (fun p => (p.1, ((lookup fixed p.1).getD (p.2 / ft * remaining))))

/-- First stage of each `while` pass of `_apply_daily_capping`: pin every
not-yet-fixed issuer whose original weight exceeds 10% to the exception
cap, scanning the rows in table order. -/
def pinBig (init : Weights) (exc : ℚ) (fixed : Weights) : Weights :=
  init.foldl
    (fun f p => if lookup f p.1 = none ∧ 1/10 < p.2 then dinsert f p.1 exc else f)
    fixed

/-- Outcome of one pass of a capping loop: either the loop returns the
tentative vector (`done t fixedAtReturn escapeHatch`), or it pins one more
issuer and continues with the enlarged `fixed` map. -/
inductive StepOut where
  | done : Weights → Weights → Bool → StepOut
  | cont : Weights → StepOut
deriving DecidableEq

/-- One pass of the `while True` loop of `_apply_daily_capping`
(index_calcs.py lines 128-147).  The `Bool` of `done` records whether the
return went through the no-eligible-candidate escape hatch. -/
def dailyStep (init : Weights) (cap exc : ℚ) (fixed : Weights) : StepOut :=
  let f1 := pinBig init exc fixed
  let t := tentative init f1
  let over5 := filterW (fun p => 1/20 < p.2) t
  let agg := (over5.map Prod.snd).sum
  if agg ≤ 2/5 then .done t f1 false
  else
    match findFirst (fun p => lookup f1 p.1 ≠ some exc)
        (List.insertionSort wLE over5) with
    | none => .done t f1 true
    | some p => .cont (dinsert f1 p.1 cap)

/-- Fuel-indexed iteration of `dailyStep`; `none` means the fuel ran out
before the loop returned. -/
def dailyRun (init : Weights) (cap exc : ℚ) : Nat → Weights → Option (Weights × Weights × Bool)
  | 0, _ => none
  | Nat.succ n, fixed =>
    match dailyStep init cap exc fixed with
    | .done t f e => some (t, f, e)
    | .cont f2 => dailyRun init cap exc n f2

/-- `_apply_daily_capping(issuers, params)` on the issuer table
`(issuer, initWeight_uncapped)`: run the loop from an empty `fixed` map.
The fuel `issuers.length + 1` is shown sufficient in `dailyRun_total`. -/
def applyDailyCapping (issuers : Weights) (cap exc : ℚ) : Option Weights :=
  (dailyRun issuers cap exc (issuers.length + 1) []).map (fun r => r.1)

/-- One pass of the `while True` loop of `_apply_quarterly_exceptions`
(index_calcs.py lines 100-107): collect the unpinned issuers whose
tentative weight exceeds `other_cap = 0.045`, and pin the largest one. -/
def quarterlyStep (init : Weights) (fixed : Weights) : StepOut :=
  let t := tentative init fixed
  let violators := filterW (fun p => lookup fixed p.1 = none ∧ 9/200 < p.2) t
  match List.insertionSort wGE violators with
  | [] => .done t fixed false
  | q :: _ => .cont (dinsert fixed q.1 (9/200))

def quarterlyRun (init : Weights) : Nat → Weights → Option (Weights × Weights)
  | 0, _ => none
  | Nat.succ n, fixed =>
    match quarterlyStep init fixed with
    | .done t f _ => some (t, f)
    | .cont f2 => quarterlyRun init n f2

/-- The region-dependent set-up of `_apply_quarterly_exceptions`
(index_calcs.py lines 77-86): a 7% top cap and five top slots for CPH and
HEL, a 4.5% cap and no top slot otherwise; the issuer table is re-sorted
by initial weight descending, and the leading `top_n` issuers are pinned
to `top_cap`.  Returns the sorted table and the initial `fixed` map. -/
def quarterlyInitFixed (region : String) (issuers : Weights) : Weights × Weights :=
  let r := upper region
  let topCap : ℚ := if r = "CPH" ∨ r = "HEL" then 7/100 else 9/200
  let topN : Nat := if r = "CPH" ∨ r = "HEL" then 5 else 0
  let init := List.insertionSort wGE issuers
  (init, (init.take topN).foldl (fun f p => dinsert f p.1 topCap) [])

/-- `_apply_quarterly_exceptions(issuers, params)` with
`params["region"]` set to `region`. -/
def applyQuarterlyExceptions (region : String) (issuers : Weights) : Option Weights :=
  let s := quarterlyInitFixed region issuers
  (quarterlyRun s.1 (issuers.length + 1) s.2).map (fun r => r.1)

/-- `_params_for_region`: standard cap 4.5% for every region, exception
cap 9% for STO and 7% otherwise (the empty region string is falsy and
falls back to CPH). -/
def paramsForRegion (region : String) : ℚ × ℚ :=
  let r := upper (if region = "" then "CPH" else region)
  if r = "STO" then (9/200, 9/100) else (9/200, 7/100)

/-- Removal of the first binding of a key, an auxiliary device for summing
over a dictionary (not part of the Python source). -/
def eraseKey (k : String) : Weights → Weights
  | [] => []
  | p :: t => if p.1 = k then t else p :: eraseKey k t

/-- Invariant carried by the daily loop state: the pinned map has distinct
keys drawn from the issuer table, every pinned value is one of the two
caps. -/
def DailyInv (init : Weights) (cap exc : ℚ) (fixed : Weights) : Prop :=
  keysNodup fixed ∧ (∀ j ∈ keysOf fixed, j ∈ keysOf init) ∧
  (∀ x ∈ fixed.map Prod.snd, x = cap ∨ x = exc)

/-- Invariant carried by the quarterly loop state. -/
def QuarterlyInv (init fixed : Weights) : Prop :=
  keysNodup fixed ∧ (∀ j ∈ keysOf fixed, j ∈ keysOf init)

/-- Six issuers for the C3 witness: A exceeds 10% and is exception-pinned,
the remaining five are scanned in ascending tentative order. -/
def c3tbl : Weights :=
  [("A", (1:ℚ)/2), ("B", 1/10), ("C", 1/10), ("D", 1/10), ("E", 1/10), ("F", 1/10)]

/-! The sum-of-weights analysis of the two loops (claim C1). -/
/-- Strengthened daily invariant: the pinned weights never exceed the
whole budget, and (except at the very start) every over-10% issuer has
already been pinned. -/
def DailySumInv (init : Weights) (cap exc : ℚ) (fixed : Weights) : Prop :=
  DailyInv init cap exc fixed ∧ sumVals fixed ≤ 1 ∧
  (fixed = [] ∨ ∀ p ∈ init, 1/10 < p.2 → lookup fixed p.1 ≠ none)

/-- Strengthened quarterly invariant. -/
def QuarterlySumInv (init fixed : Weights) : Prop :=
  QuarterlyInv init fixed ∧ sumVals fixed ≤ 1

/-! Concrete runs of the capping loops used to settle claims C1, C2, C9. -/
/-- A single-issuer table (total market cap positive, initial weight 1). -/
def c1single : Weights := [("A", 1)]

/-- Twenty issuers of 5% each. -/
def c1free20 : Weights :=
  [("I01", (1:ℚ)/20), ("I02", 1/20), ("I03", 1/20), ("I04", 1/20), ("I05", 1/20),
   ("I06", 1/20), ("I07", 1/20), ("I08", 1/20), ("I09", 1/20), ("I10", 1/20),
   ("I11", 1/20), ("I12", 1/20), ("I13", 1/20), ("I14", 1/20), ("I15", 1/20),
   ("I16", 1/20), ("I17", 1/20), ("I18", 1/20), ("I19", 1/20), ("I20", 1/20)]

/-- The quarterly CPH result on `c1free20`: five issuers pinned at 7%, the
other fifteen sharing the 65% residual. -/
def c1quartT : Weights :=
  [("I01", (7:ℚ)/100), ("I02", 7/100), ("I03", 7/100), ("I04", 7/100), ("I05", 7/100),
   ("I06", 13/300), ("I07", 13/300), ("I08", 13/300), ("I09", 13/300), ("I10", 13/300),
   ("I11", 13/300), ("I12", 13/300), ("I13", 13/300), ("I14", 13/300), ("I15", 13/300),
   ("I16", 13/300), ("I17", 13/300), ("I18", 13/300), ("I19", 13/300), ("I20", 13/300)]

def c1quartF : Weights :=
  [("I01", (7:ℚ)/100), ("I02", 7/100), ("I03", 7/100), ("I04", 7/100), ("I05", 7/100)]

/-- One issuer at 10% (kept free: the pin needs strictly more than 10%)
and eighteen at 5%. -/
def c2table : Weights :=
  [("A", (1:ℚ)/10),
   ("B01", 1/20), ("B02", 1/20), ("B03", 1/20), ("B04", 1/20), ("B05", 1/20),
   ("B06", 1/20), ("B07", 1/20), ("B08", 1/20), ("B09", 1/20), ("B10", 1/20),
   ("B11", 1/20), ("B12", 1/20), ("B13", 1/20), ("B14", 1/20), ("B15", 1/20),
   ("B16", 1/20), ("B17", 1/20), ("B18", 1/20)]

/-- The three-issuer table of the spec scenario for C9. -/
def c9table : Weights := [("A", (1:ℚ)/2), ("B", 3/10), ("C", 1/5)]

/-- Six issuers, descending, for the quarterly witness. -/
def c4tbl : Weights :=
  [("A", (3:ℚ)/10), ("B", 1/5), ("C", 3/20), ("D", 3/20), ("E", 1/10), ("F", 1/10)]

/-! Embedding of the full pipeline: normalizer, issuer aggregator,
distributor and the two builders. -/
/-- Generic decidable filter (the pandas boolean-mask selections). -/
def filterP {α : Type} (p : α → Prop) [DecidablePred p] : List α → List α
  | [] => []
  | x :: l => if p x then x :: filterP p l else filterP p l

/-- Generic first match (the pandas index join against a unique key). -/
def findP {α : Type} (p : α → Prop) [DecidablePred p] : List α → Option α
  | [] => none
  | x :: l => if p x then some x else findP p l

/-- A raw vendor row.  An `Option` field is the cell's numeric value,
`none` when the cell is missing or unparseable (`pd.to_numeric(...,
errors="coerce")` turns those into NaN, then `.fillna(0.0)` into 0). -/
structure RawRow where
  ticker : String
  name : String
  issuer : String
  price : Option ℚ
  shares : Option ℚ
  sharesCapped : Option ℚ
  volMillions : Option ℚ
  vol30d : Option ℚ
  vol30dAlt : Option ℚ
  omxWeight : Option ℚ
  omxWeightCapped : Option ℚ
deriving Repr

/-- A raw vendor table: rows plus column-presence flags (column presence
is a property of the whole DataFrame). -/
structure RawTable where
  rows : List RawRow
  hasTicker : Bool
  hasName : Bool
  hasIssuer : Bool
  hasPrice : Bool
  hasShares : Bool
  hasSharesCapped : Bool
  hasVolMillions : Bool
  hasVol30d : Bool
  hasVol30dAlt : Bool
  hasOmxWeight : Bool
  hasOmxWeightCapped : Bool
deriving Repr

structure NormRow where
  ticker : String
  name : String
  issuer : String
  price : ℚ
  shares : ℚ
  sharesCapped : ℚ
  volMillions : ℚ
  vol30d : ℚ
  mcapUncapped : ℚ
  mcapCapped : ℚ
  omxWeight : Option ℚ
  omxWeightCapped : Option ℚ
deriving Repr

/-- The per-row coercions of `_normalize_input` (index_calcs.py lines
18-37): `d["ticker"]`, `d["price"]`, `d["shares"]` are direct subscripts
(modelled as mandatory columns), the rest go through `d.get(col, 0.0)`;
the volume source column is `avg_vol_30d_millions`, else `avg_vol_30d`,
else `avg_30d_volume`. -/
def normalizeRowPass1 (t : RawTable) (r : RawRow) : NormRow :=
  let price := r.price.getD 0
  let shares := r.shares.getD 0
  let shc := if t.hasSharesCapped then r.sharesCapped.getD 0 else 0
  let volM :=
    if t.hasVolMillions then r.volMillions.getD 0
    else if t.hasVol30d then r.vol30d.getD 0
    else if t.hasVol30dAlt then r.vol30dAlt.getD 0 else 0
  { ticker := upper r.ticker
    name := if t.hasName then r.name else (if t.hasIssuer then r.issuer else "")
    issuer := r.issuer
    price := price
    shares := shares
    sharesCapped := shc
    volMillions := volM
    vol30d := volM * 1000000
    mcapUncapped := shares * price
    mcapCapped := shc * price
    omxWeight := r.omxWeight
    omxWeightCapped := r.omxWeightCapped }

/-- `_normalize_input` of index_calcs.py: raises `KeyError` when the
`ticker`, `price` or `shares` column is absent; then the row coercions,
the capped-shares fallback (capped market caps all zero while uncapped is
positive), and the `omx_weight` market-cap proxy fallback (uncapped total
exactly zero). -/
def normalizeInput (t : RawTable) : Except String (List NormRow) :=
  if ¬ t.hasTicker then .error "KeyError: ticker"
  else if ¬ t.hasPrice then .error "KeyError: price"
  else if ¬ t.hasShares then .error "KeyError: shares"
  else
    let rows1 : List NormRow := t.rows.map (normalizeRowPass1 t)
    let sumC : ℚ := (rows1.map (fun r => r.mcapCapped)).sum
    let sumU : ℚ := (rows1.map (fun r => r.mcapUncapped)).sum
    let rows2 : List NormRow :=
      if sumC = 0 ∧ 0 < sumU then
        rows1.map (fun r => { r with sharesCapped := r.shares, mcapCapped := r.mcapUncapped })
      else rows1
    let sumU2 : ℚ := (rows2.map (fun r => r.mcapUncapped)).sum
    let rows3 : List NormRow :=
      if sumU2 = 0 then
        (if t.hasOmxWeight then
          (if 0 < (rows2.map (fun r => r.omxWeight.getD 0)).sum then
            rows2.map (fun r =>
              { r with mcapUncapped := r.omxWeight.getD 0,
                       mcapCapped := r.omxWeight.getD 0, shares := 1 })
          else rows2)
        else rows2)
      else rows2
    .ok rows3

structure KNormRow where
  ticker : String
  name : String
  price : ℚ
  shares : ℚ
  avgVol30d : ℚ
  mcap : ℚ
deriving Repr

/-- `_normalize_input` of kaxcap_calcs.py (lines 19-34): same direct
subscripts for `ticker`, `price` and `shares`; volume from `avg_vol_30d`
else `avg_30d_volume` via `d.get`. -/
def kaxcapNormalizeInput (t : RawTable) : Except String (List KNormRow) :=
  if ¬ t.hasTicker then .error "KeyError: ticker"
  else if ¬ t.hasPrice then .error "KeyError: price"
  else if ¬ t.hasShares then .error "KeyError: shares"
  else .ok (t.rows.map (fun r =>
    { ticker := upper r.ticker
      name := if t.hasName then r.name else (if t.hasIssuer then r.issuer else "")
      price := r.price.getD 0
      shares := r.shares.getD 0
      avgVol30d := if t.hasVol30d then r.vol30d.getD 0
        else if t.hasVol30dAlt then r.vol30dAlt.getD 0 else 0
      mcap := (r.shares.getD 0) * (r.price.getD 0) }))

/-- `d.get("issuer", d["name"].str.upper())`. -/
def resolveIssuer (hasIssuer : Bool) (r : NormRow) : String :=
  if hasIssuer then r.issuer else upper r.name

/-- Ascending key order of a pandas `groupby` result. -/
def sLE (a b : String) : Prop := ¬ b < a

instance : DecidableRel sLE := fun a b => inferInstanceAs (Decidable (¬ b < a))

/-- Descending market-cap order on grouped issuer sums. -/
def gGE (a b : String × ℚ × ℚ) : Prop := b.2.1 ≤ a.2.1

instance : DecidableRel gGE := fun a b => inferInstanceAs (Decidable (b.2.1 ≤ a.2.1))

structure IssuerRow where
  issuer : String
  mcapUncapped : ℚ
  mcapCapped : ℚ
  initWUncapped : ℚ
  initWCapped : ℚ
deriving Repr

/-- `_compute_issuer_mcaps`: group rows by resolved issuer (groupby sorts
keys ascending), sum both market-cap columns, sort descending by uncapped
sum, and divide by the (zero-guarded) totals. -/
def groupKeys (hasIssuer : Bool) (rows : List NormRow) : List String :=
  List.insertionSort sLE ((rows.map (resolveIssuer hasIssuer)).dedup)

/-- The issuer-level market-cap sums, sorted descending by uncapped sum. -/
def groupedMcaps (hasIssuer : Bool) (rows : List NormRow) : List (String × ℚ × ℚ) :=
  List.insertionSort gGE ((groupKeys hasIssuer rows).map (fun k =>
    (k, (((filterP (fun r => resolveIssuer hasIssuer r = k) rows).map
        (fun r => r.mcapUncapped)).sum,
      ((filterP (fun r => resolveIssuer hasIssuer r = k) rows).map
        (fun r => r.mcapCapped)).sum))))

def computeIssuerMcaps (hasIssuer : Bool) (rows : List NormRow) : List IssuerRow :=
  let sorted := groupedMcaps hasIssuer rows
  let totU := (sorted.map (fun g => g.2.1)).sum
  let totC := (sorted.map (fun g => g.2.2)).sum
  sorted.map (fun g =>
    { issuer := g.1
      mcapUncapped := g.2.1
      mcapCapped := g.2.2
      initWUncapped := g.2.1 / (if totU = 0 then 1 else totU)
      initWCapped := g.2.2 / (if totC = 0 then 1 else totC) })

/-- The issuer-weight table handed to the capping engines. -/
def issuersW (issuers : List IssuerRow) : Weights :=
  issuers.map (fun i => (i.issuer, i.initWUncapped))

structure DistRow where
  row : NormRow
  issuer : String
  issuerMcapUncapped : ℚ
  issuerMcapCapped : ℚ
  shareUncapped : ℚ
  shareCapped : ℚ
  weight : ℚ
  cappedWeight : ℚ
deriving Repr

/-- `_distribute_to_constituents` (index_calcs.py lines 150-167): per-row
share of the issuer total on each basis (0 when the issuer total is 0,
via Python truthiness), times the issuer's final weight
(`final_issuer_w.get(issuer, 0.0)`). -/
def distRow (hasIssuer : Bool) (rows : List NormRow) (finalW : Weights)
    (r : NormRow) : DistRow :=
  let issuer := resolveIssuer hasIssuer r
  let rs := filterP (fun r2 => resolveIssuer hasIssuer r2 = issuer) rows
  let totU := (rs.map (fun r2 => r2.mcapUncapped)).sum
  let totC := (rs.map (fun r2 => r2.mcapCapped)).sum
  let shareU := if totU = 0 then 0 else r.mcapUncapped / totU
  let shareC := if totC = 0 then 0 else r.mcapCapped / totC
  { row := r
    issuer := issuer
    issuerMcapUncapped := totU
    issuerMcapCapped := totC
    shareUncapped := shareU
    shareCapped := shareC
    weight := (lookup finalW issuer).getD 0 * shareU
    cappedWeight := (lookup finalW issuer).getD 0 * shareC }

def distributeToConstituents (hasIssuer : Bool) (rows : List NormRow)
    (finalW : Weights) : List DistRow :=
  rows.map (distRow hasIssuer rows finalW)

/-- Current capped weight of a row in `build_status` (lines 179-185):
vendor `omx_weight_capped / 100` when the column exists, else the row's
share of total capped market cap (total zero-guarded to 1). -/
def statusCurrW (t : RawTable) (rows : List NormRow) (r : NormRow) : ℚ :=
  if t.hasOmxWeightCapped then (r.omxWeightCapped.getD 0) / 100
  else r.mcapCapped /
    (if (rows.map (fun x => x.mcapCapped)).sum = 0 then 1
     else (rows.map (fun x => x.mcapCapped)).sum)

structure StatusRow where
  ticker : String
  issuer : String
  name : String
  price : ℚ
  shares : ℚ
  sharesCapped : ℚ
  mcapUncapped : ℚ
  mcapCapped : ℚ
  weight : ℚ
  cappedWeight : ℚ
  deltaPct : ℚ
  avgVol30d : ℚ
  currWeightCapped : ℚ
deriving Repr

/-- One output row of `build_status`: the distributed row joined (by
ticker) with its current capped weight, and
`delta_pct = capped_weight - curr_weight_capped`. -/
def statusRowOf (t : RawTable) (d : List NormRow) (o : DistRow) : StatusRow :=
  let curr := ((findP (fun r2 => r2.ticker = o.row.ticker) d).map
    (statusCurrW t d)).getD 0
  { ticker := o.row.ticker
    issuer := o.issuer
    name := o.row.name
    price := o.row.price
    shares := o.row.shares
    sharesCapped := o.row.sharesCapped
    mcapUncapped := o.row.mcapUncapped
    mcapCapped := o.row.mcapCapped
    weight := o.weight
    cappedWeight := o.cappedWeight
    deltaPct := o.cappedWeight - curr
    avgVol30d := o.row.vol30d
    currWeightCapped := curr }

/-- `build_status` before the rounding pass (index_calcs.py lines
170-198): normalize, aggregate, cap (daily or quarterly), distribute,
join the current capped weight by ticker, and set
`delta_pct = capped_weight - curr_weight_capped`.  The metadata columns
(`index_id`, `as_of`, `region`, `flags`) and the final column selection
(which drops `curr_weight_capped`) are not modelled. -/
def buildStatusUnrounded (t : RawTable) (region : String) (quarterly : Bool) :
    Except String (List StatusRow) :=
  match normalizeInput t with
  | .error e => .error e
  | .ok d =>
    let params := paramsForRegion region
    let regionU := upper (if region = "" then "CPH" else region)
    let iw := issuersW (computeIssuerMcaps t.hasIssuer d)
    match (if quarterly then applyQuarterlyExceptions regionU iw
           else applyDailyCapping iw params.1 params.2) with
    | none => .error "capping iteration exhausted"
    | some finalW =>
      .ok ((distributeToConstituents t.hasIssuer d finalW).map (statusRowOf t d))

/-- Round to nearest with ties to even, the rounding of `Series.round`. -/
def roundHalfEven (q : ℚ) : ℤ :=
  if q - ⌊q⌋ < 1/2 then ⌊q⌋
  else if 1/2 < q - ⌊q⌋ then ⌊q⌋ + 1
  else if ⌊q⌋ % 2 = 0 then ⌊q⌋ else ⌊q⌋ + 1

def roundTo (n : ℕ) (q : ℚ) : ℚ := (roundHalfEven (q * 10 ^ n) : ℚ) / 10 ^ n

/-- The rounding pass of `build_status` (lines 200-208): price and share
columns to 2 decimals, the two weight columns to 4; `delta_pct` is not
rounded there. -/
def roundStatusRow (o : StatusRow) : StatusRow :=
  { o with
    price := roundTo 2 o.price
    shares := roundTo 2 o.shares
    sharesCapped := roundTo 2 o.sharesCapped
    avgVol30d := roundTo 2 o.avgVol30d
    weight := roundTo 4 o.weight
    cappedWeight := roundTo 4 o.cappedWeight }

def buildStatus (t : RawTable) (region : String) (quarterly : Bool) :
    Except String (List StatusRow) :=
  (buildStatusUnrounded t region quarterly).map (List.map roundStatusRow)

/-- Current uncapped weight of a row in `build_quarterly_proforma` (lines
272-278). -/
def proformaCurrWU (t : RawTable) (rows : List NormRow) (r : NormRow) : ℚ :=
  if t.hasOmxWeight then (r.omxWeight.getD 0) / 100
  else r.mcapUncapped /
    (if (rows.map (fun x => x.mcapUncapped)).sum = 0 then 1
     else (rows.map (fun x => x.mcapUncapped)).sum)

/-- Current capped weight of a row in `build_quarterly_proforma` (lines
279-285): vendor `omx_weight_capped / 100` when present, else the
UNCAPPED current weight (the code's documented fallback). -/
def proformaCurrWC (t : RawTable) (rows : List NormRow) (r : NormRow) : ℚ :=
  if t.hasOmxWeightCapped then (r.omxWeightCapped.getD 0) / 100
  else proformaCurrWU t rows r

structure ProformaRow where
  ticker : String
  issuer : String
  name : String
  price : ℚ
  shares : ℚ
  sharesCapped : ℚ
  mcapUncapped : ℚ
  mcapCapped : ℚ
  currWUncapped : ℚ
  currWCapped : ℚ
  weight : ℚ
  cappedWeight : ℚ
  deltaPct : ℚ
  deltaCcy : ℚ
  deltaVol : ℚ
  daysToCover : ℚ
  avgVol30d : ℚ
  volMillions : ℚ
deriving Repr

/-- One output row of `build_quarterly_proforma`: the distributed row
joined (by ticker) with both current weights,
`delta_pct = weight - curr_weight_capped` (the uncapped-basis target
weight), `delta_ccy = delta_pct * aum`,
`delta_vol = delta_ccy / price / 1e6` (0 when price is 0) and
`days_to_cover = |delta_vol| / volume-in-millions` (divisor 1 when the
volume is 0). -/
def proformaRowOf (t : RawTable) (d : List NormRow) (aum : ℚ) (o : DistRow) : ProformaRow :=
  let cwu := ((findP (fun r2 => r2.ticker = o.row.ticker) d).map
    (proformaCurrWU t d)).getD 0
  let cwc := ((findP (fun r2 => r2.ticker = o.row.ticker) d).map
    (proformaCurrWC t d)).getD 0
  let delta : ℚ := o.weight - cwc
  let dccy : ℚ := delta * aum
  let dvol : ℚ := if o.row.price ≠ 0 then dccy / o.row.price / 1000000 else 0
  let dtcDen : ℚ := if o.row.volMillions ≠ 0 then o.row.volMillions else 1
  { ticker := o.row.ticker
    issuer := o.issuer
    name := o.row.name
    price := o.row.price
    shares := o.row.shares
    sharesCapped := o.row.sharesCapped
    mcapUncapped := o.row.mcapUncapped
    mcapCapped := o.row.mcapCapped
    currWUncapped := cwu
    currWCapped := cwc
    weight := o.weight
    cappedWeight := o.cappedWeight
    deltaPct := delta
    deltaCcy := dccy
    deltaVol := dvol
    daysToCover := abs dvol / dtcDen
    avgVol30d := o.row.vol30d
    volMillions := o.row.volMillions }

/-- `build_quarterly_proforma` before the rounding pass (lines 257-301):
region-default AUM, quarterly capping, distribution, the two current
weights joined by ticker, and `delta_pct = weight - curr_weight_capped`
(the uncapped-basis target weight, per the source), with the derived
`delta_ccy`, `delta_vol` (0 when price is 0) and `days_to_cover`
(divisor 1 when the volume is 0). -/
def buildQuarterlyProformaUnrounded (t : RawTable) (region : String) (aumCcy : ℚ) :
    Except String (List ProformaRow) :=
  match normalizeInput t with
  | .error e => .error e
  | .ok d =>
    let regionU := upper (if region = "" then "CPH" else region)
    let defaultAum : ℚ :=
      if regionU = "CPH" then 110000000000
      else if regionU = "HEL" then 22000000000
      else (if aumCcy ≠ 0 then aumCcy else 0)
    let aum := if aumCcy ≠ 0 then aumCcy else defaultAum
    match applyQuarterlyExceptions regionU (issuersW (computeIssuerMcaps t.hasIssuer d)) with
    | none => .error "capping iteration exhausted"
    | some finalW =>
      .ok ((distributeToConstituents t.hasIssuer d finalW).map (proformaRowOf t d aum))

/-- The rounding pass of `build_quarterly_proforma` (lines 303-311). -/
def roundProformaRow (o : ProformaRow) : ProformaRow :=
  { o with
    price := roundTo 2 o.price
    shares := roundTo 2 o.shares
    sharesCapped := roundTo 2 o.sharesCapped
    deltaCcy := roundTo 2 o.deltaCcy
    deltaVol := roundTo 2 o.deltaVol
    daysToCover := roundTo 2 o.daysToCover
    avgVol30d := roundTo 2 o.avgVol30d
    volMillions := roundTo 2 o.volMillions
    currWUncapped := roundTo 4 o.currWUncapped
    currWCapped := roundTo 4 o.currWCapped
    weight := roundTo 4 o.weight
    cappedWeight := roundTo 4 o.cappedWeight
    deltaPct := roundTo 4 o.deltaPct }

/-- Final descending sort by uncapped market cap (line 318). -/
def prGE (a b : ProformaRow) : Prop := b.mcapUncapped ≤ a.mcapUncapped

instance : DecidableRel prGE := fun a b => inferInstanceAs (Decidable (b.mcapUncapped ≤ a.mcapUncapped))

def buildQuarterlyProforma (t : RawTable) (region : String) (aumCcy : ℚ) :
    Except String (List ProformaRow) :=
  (buildQuarterlyProformaUnrounded t region aumCcy).map
    (fun l => List.insertionSort prGE (l.map roundProformaRow))

def isOkE {α : Type} : Except String α → Bool
  | .ok _ => true
  | .error _ => false

def exList {α : Type} : Except String (List α) → List α
  | .ok l => l
  | .error _ => []

def c8r1 : NormRow :=
  { ticker := "X1", name := "N1", issuer := "I", price := 1, shares := 6,
    sharesCapped := 3, volMillions := 0, vol30d := 0, mcapUncapped := 6,
    mcapCapped := 3, omxWeight := none, omxWeightCapped := none }

def c8r2 : NormRow :=
  { ticker := "X2", name := "N2", issuer := "I", price := 1, shares := 4,
    sharesCapped := 1, volMillions := 0, vol30d := 0, mcapUncapped := 4,
    mcapCapped := 1, omxWeight := none, omxWeightCapped := none }

/-- Two issuers with identical uncapped but different capped market caps,
no vendor weight columns. -/
def c6tbl : RawTable :=
  { rows :=
      [{ ticker := "X", name := "NX", issuer := "IX", price := some 1, shares := some 10,
         sharesCapped := some 2, volMillions := none, vol30d := none, vol30dAlt := none,
         omxWeight := none, omxWeightCapped := none },
       { ticker := "Y", name := "NY", issuer := "IY", price := some 1, shares := some 10,
         sharesCapped := some 10, volMillions := none, vol30d := none, vol30dAlt := none,
         omxWeight := none, omxWeightCapped := none }]
    hasTicker := true, hasName := true, hasIssuer := true, hasPrice := true
    hasShares := true, hasSharesCapped := true, hasVolMillions := false
    hasVol30d := false, hasVol30dAlt := false, hasOmxWeight := false
    hasOmxWeightCapped := false }

/-- The X-row of `c6tbl` after normalization, distribution and the status
join, before rounding. -/
def c6statusX : StatusRow :=
  { ticker := "X", issuer := "IX", name := "NX", price := 1, shares := 10,
    sharesCapped := 2, mcapUncapped := 10, mcapCapped := 2, weight := 7/100,
    cappedWeight := 7/100, deltaPct := -29/300, avgVol30d := 0, currWeightCapped := 1/6 }

def c6statusY : StatusRow :=
  { ticker := "Y", issuer := "IY", name := "NY", price := 1, shares := 10,
    sharesCapped := 10, mcapUncapped := 10, mcapCapped := 10, weight := 7/100,
    cappedWeight := 7/100, deltaPct := -229/300, avgVol30d := 0, currWeightCapped := 5/6 }

/-- A table whose `price` column is absent entirely. -/
def c7tbl : RawTable :=
  { rows :=
      [{ ticker := "X", name := "NX", issuer := "IX", price := none, shares := some 5,
         sharesCapped := none, volMillions := none, vol30d := none, vol30dAlt := none,
         omxWeight := none, omxWeightCapped := none }]
    hasTicker := true, hasName := true, hasIssuer := true, hasPrice := false
    hasShares := true, hasSharesCapped := false, hasVolMillions := false
    hasVol30d := false, hasVol30dAlt := false, hasOmxWeight := false
    hasOmxWeightCapped := false }

def c7okRow : RawRow :=
  { ticker := "X", name := "", issuer := "", price := none, shares := some 5,
    sharesCapped := none, volMillions := none, vol30d := none, vol30dAlt := none,
    omxWeight := none, omxWeightCapped := none }

/-- A table with the three mandatory columns but an unparseable price
cell. -/
def c7ok : RawTable :=
  { rows := [c7okRow]
    hasTicker := true, hasName := false, hasIssuer := false, hasPrice := true
    hasShares := true, hasSharesCapped := false, hasVolMillions := false
    hasVol30d := false, hasVol30dAlt := false, hasOmxWeight := false
    hasOmxWeightCapped := false }

def c6profX : ProformaRow :=
  { ticker := "X", issuer := "IX", name := "NX", price := 1, shares := 10,
    sharesCapped := 2, mcapUncapped := 10, mcapCapped := 2, currWUncapped := 1/2,
    currWCapped := 1/2, weight := 7/100, cappedWeight := 7/100, deltaPct := -43/100,
    deltaCcy := -47300000000, deltaVol := -47300, daysToCover := 47300,
    avgVol30d := 0, volMillions := 0 }

def c6profY : ProformaRow :=
  { ticker := "Y", issuer := "IY", name := "NY", price := 1, shares := 10,
    sharesCapped := 10, mcapUncapped := 10, mcapCapped := 10, currWUncapped := 1/2,
    currWCapped := 1/2, weight := 7/100, cappedWeight := 7/100, deltaPct := -43/100,
    deltaCcy := -47300000000, deltaVol := -47300, daysToCover := 47300,
    avgVol30d := 0, volMillions := 0 }

/-! Basic lemmas about the dictionary model. -/
theorem keysOf_nil : keysOf [] = [] := rfl

theorem keysOf_cons (p : String × ℚ) (m : Weights) : keysOf (p :: m) = p.1 :: keysOf m := rfl

theorem keysOf_append (m n : Weights) : keysOf (m ++ n) = keysOf m ++ keysOf n := by
  simp [keysOf]

theorem sumVals_append (m n : Weights) : sumVals (m ++ n) = sumVals m + sumVals n := by
  simp [sumVals]

theorem lookup_eq_none_iff {m : Weights} {k : String} :
    lookup m k = none ↔ k ∉ keysOf m := by
  induction m with
  | nil => simp [lookup, keysOf]
  | cons p t ih =>
    rw [lookup, keysOf_cons]
    by_cases h : p.1 = k
    · subst h
      simp
    · rw [if_neg h, ih, List.mem_cons]
      constructor
      · intro hn hh
        rcases hh with hh | hh
        · exact h hh.symm
        · exact hn hh
      · intro hn hh
        exact hn (Or.inr hh)

theorem lookup_isSome_iff {m : Weights} {k : String} :
    (lookup m k).isSome = true ↔ k ∈ keysOf m := by
  constructor
  · intro hs
    by_contra hk
    rw [lookup_eq_none_iff.2 hk] at hs
    simp at hs
  · intro hk
    cases hh : lookup m k
    · exact absurd hk (lookup_eq_none_iff.1 hh)
    · rw [Option.isSome_iff_exists]
      exact ⟨_, rfl⟩

theorem lookup_mem {m : Weights} {k : String} {v : ℚ} (h : lookup m k = some v) :
    (k, v) ∈ m := by
  induction m with
  | nil => simp [lookup] at h
  | cons p t ih =>
    by_cases hp : p.1 = k
    · rw [lookup, if_pos hp] at h
      injection h with h
      have hpv : p = (k, v) := by
        cases p
        simp_all
      exact List.mem_cons.2 (Or.inl hpv.symm)
    · rw [lookup, if_neg hp] at h
      exact List.mem_cons_of_mem _ (ih h)

theorem lookup_append_of_not_mem {m : Weights} {k : String} (n : Weights)
    (h : k ∉ keysOf m) : lookup (m ++ n) k = lookup n k := by
  induction m with
  | nil => simp
  | cons p t ih =>
    rw [keysOf_cons, List.mem_cons] at h
    push_neg at h
    rw [List.cons_append, lookup, if_neg (fun hh => h.1 hh.symm)]
    exact ih h.2

theorem lookup_replace_self {m : Weights} {k : String} (v : ℚ) (h : k ∈ keysOf m) :
    lookup (m.map (fun p => if p.1 = k then (k, v) else p)) k = some v := by
  induction m with
  | nil => simp [keysOf] at h
  | cons p t ih =>
    rw [keysOf_cons, List.mem_cons] at h
    by_cases hp : p.1 = k
    · simp [lookup, hp]
    · rcases h with h | h
      · exact absurd h.symm hp
      · simpa [lookup, hp] using ih h

theorem lookup_replace_ne {m : Weights} {k j : String} (v : ℚ) (h : j ≠ k) :
    lookup (m.map (fun p => if p.1 = k then (k, v) else p)) j = lookup m j := by
  induction m with
  | nil => simp [lookup]
  | cons p t ih =>
    simp only [List.map_cons, lookup]
    by_cases hp : p.1 = k
    · rw [if_pos hp]
      have h1 : ¬((k, v).1 = j) := fun hh => h hh.symm
      have h2 : ¬(p.1 = j) := fun hh => h ((hp ▸ hh : k = j).symm)
      rw [if_neg h1, if_neg h2]
      exact ih
    · rw [if_neg hp]
      by_cases hpj : p.1 = j
      · rw [if_pos hpj, if_pos hpj]
      · rw [if_neg hpj, if_neg hpj]
        exact ih

theorem dinsert_of_not_mem {m : Weights} {k : String} (v : ℚ) (h : k ∉ keysOf m) :
    dinsert m k v = m ++ [(k, v)] := by
  rw [dinsert, if_neg]
  rw [lookup_eq_none_iff.2 h]
  simp

theorem keysOf_dinsert_of_isSome {m : Weights} {k : String} (v : ℚ)
    (h : (lookup m k).isSome = true) :
    keysOf (dinsert m k v) = keysOf m := by
  rw [dinsert, if_pos h]
  simp only [keysOf, List.map_map]
  apply List.map_congr_left
  intro p _
  by_cases hp : p.1 = k <;> simp [hp]

theorem keysNodup_dinsert {m : Weights} {k : String} (v : ℚ) (h : keysNodup m) :
    keysNodup (dinsert m k v) := by
  by_cases hs : (lookup m k).isSome = true
  · unfold keysNodup
    rw [keysOf_dinsert_of_isSome v hs]
    exact h
  · have hk : k ∉ keysOf m := by
      rw [← lookup_eq_none_iff]
      cases hh : lookup m k
      · rfl
      · rw [hh] at hs; simp at hs
    rw [dinsert_of_not_mem v hk]
    unfold keysNodup at h ⊢
    rw [keysOf_append]
    rw [List.nodup_append]
    refine ⟨h, by simp [keysOf], ?_⟩
    intro a ha hb
    rw [keysOf_cons, keysOf_nil] at hb
    rcases List.mem_cons.1 hb with hb | hb
    · have hb2 : a = k := hb
      exact hk (hb2 ▸ ha)
    · simp at hb

theorem mem_keysOf_dinsert {m : Weights} {k j : String} {v : ℚ}
    (h : j ∈ keysOf (dinsert m k v)) : j ∈ keysOf m ∨ j = k := by
  by_cases hs : (lookup m k).isSome = true
  · rw [keysOf_dinsert_of_isSome v hs] at h
    exact Or.inl h
  · have hk : k ∉ keysOf m := by
      rw [← lookup_eq_none_iff]
      cases hh : lookup m k
      · rfl
      · rw [hh] at hs; simp at hs
    rw [dinsert_of_not_mem v hk, keysOf_append] at h
    rcases List.mem_append.1 h with h1 | h1
    · exact Or.inl h1
    · right
      simpa [keysOf] using h1

theorem mem_vals_dinsert {m : Weights} {k : String} {v x : ℚ}
    (h : x ∈ (dinsert m k v).map Prod.snd) : x ∈ m.map Prod.snd ∨ x = v := by
  rw [dinsert] at h
  by_cases hs : (lookup m k).isSome = true
  · rw [if_pos hs] at h
    simp only [List.map_map, List.mem_map] at h
    obtain ⟨p, hp, he⟩ := h
    by_cases hpk : p.1 = k
    · simp [hpk] at he
      exact Or.inr he.symm
    · simp [hpk] at he
      exact Or.inl (by exact List.mem_map.2 ⟨p, hp, he⟩)
  · rw [if_neg hs] at h
    rw [List.map_append] at h
    rcases List.mem_append.1 h with h | h
    · exact Or.inl h
    · simp at h
      exact Or.inr h

theorem sumVals_dinsert_of_not_mem {m : Weights} {k : String} (v : ℚ) (h : k ∉ keysOf m) :
    sumVals (dinsert m k v) = sumVals m + v := by
  rw [dinsert_of_not_mem v h, sumVals_append]
  simp [sumVals]

theorem length_dinsert_of_not_mem {m : Weights} {k : String} (v : ℚ) (h : k ∉ keysOf m) :
    (dinsert m k v).length = m.length + 1 := by
  rw [dinsert_of_not_mem v h]
  simp

theorem lookup_dinsert_self {m : Weights} (k : String) (v : ℚ) :
    lookup (dinsert m k v) k = some v := by
  rw [dinsert]
  by_cases hs : (lookup m k).isSome = true
  · rw [if_pos hs]
    exact lookup_replace_self v (lookup_isSome_iff.1 hs)
  · rw [if_neg hs]
    have hk : k ∉ keysOf m := by
      intro hk
      exact hs (lookup_isSome_iff.2 hk)
    rw [lookup_append_of_not_mem _ hk, lookup, if_pos rfl]

theorem lookup_dinsert_ne {m : Weights} {k j : String} (v : ℚ) (h : j ≠ k) :
    lookup (dinsert m k v) j = lookup m j := by
  rw [dinsert]
  by_cases hs : (lookup m k).isSome = true
  · rw [if_pos hs]
    exact lookup_replace_ne v h
  · rw [if_neg hs]
    by_cases hj : j ∈ keysOf m
    · induction m with
      | nil => simp [keysOf] at hj
      | cons p t ih =>
        by_cases hpj : p.1 = j
        · simp [lookup, hpj]
        · have hs2 : ¬(lookup t k).isSome = true := by
            intro hs2
            apply hs
            rw [lookup]
            by_cases hpk : p.1 = k <;> simp [hpk, hs2]
          have hj2 : j ∈ keysOf t := by
            rcases List.mem_cons.1 (keysOf_cons p t ▸ hj) with hh | hh
            · exact absurd hh.symm hpj
            · exact hh
          simpa [lookup, hpj] using ih hs2 hj2
    · rw [lookup_append_of_not_mem _ hj, lookup, if_neg (fun hh => h hh.symm)]
      rw [lookup]
      exact (lookup_eq_none_iff.2 hj).symm

theorem mem_filterW {p : String × ℚ → Prop} [DecidablePred p] {l : Weights}
    {x : String × ℚ} : x ∈ filterW p l ↔ x ∈ l ∧ p x := by
  induction l with
  | nil => simp [filterW]
  | cons y t ih =>
    by_cases hy : p y
    · constructor
      · intro hx
        rw [filterW, if_pos hy] at hx
        rcases List.mem_cons.1 hx with hx | hx
        · exact ⟨by simp [hx], hx ▸ hy⟩
        · exact ⟨List.mem_cons_of_mem _ (ih.1 hx).1, (ih.1 hx).2⟩
      · intro ⟨hx, hpx⟩
        rw [filterW, if_pos hy]
        rcases List.mem_cons.1 hx with hx | hx
        · simp [hx]
        · exact List.mem_cons_of_mem _ (ih.2 ⟨hx, hpx⟩)
    · rw [filterW, if_neg hy]
      constructor
      · intro hx
        exact ⟨List.mem_cons_of_mem _ (ih.1 hx).1, (ih.1 hx).2⟩
      · intro ⟨hx, hpx⟩
        rcases List.mem_cons.1 hx with hx | hx
        · exact absurd (hx ▸ hpx) hy
        · exact ih.2 ⟨hx, hpx⟩

theorem findFirst_eq_none {p : String × ℚ → Prop} [DecidablePred p] {l : Weights} :
    findFirst p l = none ↔ ∀ x ∈ l, ¬ p x := by
  induction l with
  | nil => simp [findFirst]
  | cons y t ih =>
    by_cases hy : p y <;> simp [findFirst, hy, ih]

theorem findFirst_eq_some {p : String × ℚ → Prop} [DecidablePred p] {l : Weights}
    {x : String × ℚ} (h : findFirst p l = some x) : x ∈ l ∧ p x := by
  induction l with
  | nil => simp [findFirst] at h
  | cons y t ih =>
    by_cases hy : p y
    · rw [findFirst, if_pos hy] at h
      cases h
      exact ⟨by simp, hy⟩
    · rw [findFirst, if_neg hy] at h
      exact ⟨List.mem_cons_of_mem _ (ih h).1, (ih h).2⟩

theorem findFirst_isSome (p : String × ℚ → Prop) [DecidablePred p] {l : Weights}
    {x : String × ℚ} (hx : x ∈ l) (hpx : p x) : ∃ y, findFirst p l = some y := by
  induction l with
  | nil => simp at hx
  | cons y t ih =>
    by_cases hy : p y
    · exact ⟨y, by rw [findFirst, if_pos hy]⟩
    · rcases List.mem_cons.1 hx with hx | hx
      · exact absurd (hx ▸ hpx) hy
      · obtain ⟨z, hz⟩ := ih hx
        exact ⟨z, by rw [findFirst, if_neg hy]; exact hz⟩

theorem filterW_congr {p q : String × ℚ → Prop} [DecidablePred p] [DecidablePred q]
    {l : Weights} (h : ∀ x ∈ l, p x ↔ q x) : filterW p l = filterW q l := by
  induction l with
  | nil => rfl
  | cons y t ih =>
    have hy := h y (by simp)
    by_cases hp : p y
    · rw [filterW, if_pos hp, filterW, if_pos (hy.1 hp),
        ih (fun x hx => h x (List.mem_cons_of_mem _ hx))]
    · rw [filterW, if_neg hp, filterW, if_neg (fun hq => hp (hy.2 hq)),
        ih (fun x hx => h x (List.mem_cons_of_mem _ hx))]

theorem lookup_eraseKey_ne {m : Weights} {k j : String} (h : j ≠ k) :
    lookup (eraseKey k m) j = lookup m j := by
  induction m with
  | nil => rfl
  | cons p t ih =>
    by_cases hp : p.1 = k
    · rw [eraseKey, if_pos hp, lookup, if_neg (fun hh : p.1 = j => h ((hp ▸ hh : k = j).symm))]
    · rw [eraseKey, if_neg hp]
      by_cases hpj : p.1 = j
      · rw [lookup, if_pos hpj, lookup, if_pos hpj]
      · rw [lookup, if_neg hpj, lookup, if_neg hpj]
        exact ih

theorem sumVals_eraseKey {m : Weights} {k : String} {v : ℚ} (h : lookup m k = some v) :
    sumVals m = v + sumVals (eraseKey k m) := by
  induction m with
  | nil => simp [lookup] at h
  | cons p t ih =>
    by_cases hp : p.1 = k
    · rw [lookup, if_pos hp] at h
      injection h with h
      rw [eraseKey, if_pos hp]
      simp [sumVals, h]
    · rw [lookup, if_neg hp] at h
      rw [eraseKey, if_neg hp]
      simp only [sumVals, List.map_cons, List.sum_cons] at ih ⊢
      rw [ih h]
      ring

theorem keysOf_eraseKey_subset {m : Weights} {k j : String}
    (h : j ∈ keysOf (eraseKey k m)) : j ∈ keysOf m := by
  induction m with
  | nil => exact h
  | cons p t ih =>
    by_cases hp : p.1 = k
    · rw [eraseKey, if_pos hp] at h
      exact List.mem_cons_of_mem _ h
    · rw [eraseKey, if_neg hp, keysOf_cons] at h
      rcases List.mem_cons.1 h with h | h
      · exact List.mem_cons.2 (Or.inl h)
      · exact List.mem_cons_of_mem _ (ih h)

theorem keysNodup_eraseKey {m : Weights} (k : String) (h : keysNodup m) :
    keysNodup (eraseKey k m) := by
  induction m with
  | nil => exact h
  | cons p t ih =>
    unfold keysNodup at h ⊢
    rw [keysOf_cons, List.nodup_cons] at h
    by_cases hp : p.1 = k
    · rw [eraseKey, if_pos hp]
      exact h.2
    · rw [eraseKey, if_neg hp, keysOf_cons, List.nodup_cons]
      exact ⟨fun hm => h.1 (keysOf_eraseKey_subset hm), ih h.2⟩

theorem not_mem_keysOf_eraseKey {m : Weights} {k : String} (h : keysNodup m) :
    k ∉ keysOf (eraseKey k m) := by
  induction m with
  | nil => simp [eraseKey, keysOf]
  | cons p t ih =>
    unfold keysNodup at h
    rw [keysOf_cons, List.nodup_cons] at h
    by_cases hp : p.1 = k
    · rw [eraseKey, if_pos hp]
      subst hp
      exact h.1
    · rw [eraseKey, if_neg hp, keysOf_cons]
      intro hm
      rcases List.mem_cons.1 hm with hm | hm
      · exact hp hm.symm
      · exact ih h.2 hm

/-- Splitting a sum over the issuer table into the pinned part (which
contributes exactly `sum(fixed.values())`) and the free part. -/
theorem sum_getD_split (g : String × ℚ → ℚ) :
    ∀ (init fixed : Weights), keysNodup init → keysNodup fixed →
    (∀ j ∈ keysOf fixed, j ∈ keysOf init) →
    (init.map (fun p => (lookup fixed p.1).getD (g p))).sum
      = sumVals fixed + ((filterW (fun p => lookup fixed p.1 = none) init).map g).sum := by
  intro init
  induction init with
  | nil =>
    intro fixed _ _ hsub
    have hfix : fixed = [] := by
      cases fixed with
      | nil => rfl
      | cons q m => exact absurd (hsub q.1 (by simp [keysOf])) (by simp [keysOf])
    subst hfix
    simp [sumVals, filterW]
  | cons p t ih =>
    intro fixed hndI hndF hsub
    have hndI2 : keysNodup t := by
      unfold keysNodup at hndI ⊢
      rw [keysOf_cons, List.nodup_cons] at hndI
      exact hndI.2
    have hp1t : p.1 ∉ keysOf t := by
      unfold keysNodup at hndI
      rw [keysOf_cons, List.nodup_cons] at hndI
      exact hndI.1
    cases hl : lookup fixed p.1 with
    | none =>
      have hsub2 : ∀ j ∈ keysOf fixed, j ∈ keysOf t := by
        intro j hj
        rcases List.mem_cons.1 (keysOf_cons p t ▸ hsub j hj) with hh | hh
        · subst hh
          exact absurd hj (lookup_eq_none_iff.1 hl)
        · exact hh
      rw [List.map_cons, List.sum_cons, hl, filterW, if_pos hl, List.map_cons, List.sum_cons,
        ih fixed hndI2 hndF hsub2]
      simp only [Option.getD]
      ring
    | some v =>
      have hpk : p.1 ∈ keysOf fixed := by
        rw [← lookup_isSome_iff, hl]
        rfl
      have herased : ∀ q ∈ t, lookup (eraseKey p.1 fixed) q.1 = lookup fixed q.1 := by
        intro q hq
        apply lookup_eraseKey_ne
        intro hh
        exact hp1t (hh ▸ (List.mem_map.2 ⟨q, hq, rfl⟩))
      have hsub2 : ∀ j ∈ keysOf (eraseKey p.1 fixed), j ∈ keysOf t := by
        intro j hj
        have hjf : j ∈ keysOf fixed := keysOf_eraseKey_subset hj
        rcases List.mem_cons.1 (keysOf_cons p t ▸ hsub j hjf) with hh | hh
        · exact absurd (hh ▸ hj) (not_mem_keysOf_eraseKey hndF)
        · exact hh
      have hmap : t.map (fun q => (lookup fixed q.1).getD (g q))
          = t.map (fun q => (lookup (eraseKey p.1 fixed) q.1).getD (g q)) := by
        apply List.map_congr_left
        intro q hq
        rw [herased q hq]
      have hfil : filterW (fun q => lookup fixed q.1 = none) t
          = filterW (fun q => lookup (eraseKey p.1 fixed) q.1 = none) t := by
        apply filterW_congr
        intro q hq
        rw [herased q hq]
      rw [List.map_cons, List.sum_cons, hl, filterW, if_neg (by rw [hl]; simp), hfil, hmap,
        ih (eraseKey p.1 fixed) hndI2 (keysNodup_eraseKey _ hndF) hsub2,
        sumVals_eraseKey hl]
      simp only [Option.getD]
      ring

/-- The first element of an `wLE`-sorted list satisfying `p` is `wLE`-least
among the elements satisfying `p`. -/
theorem findFirst_sorted_min {l : Weights} (hs : l.Sorted wLE)
    {p : String × ℚ → Prop} [DecidablePred p] {a : String × ℚ}
    (h : findFirst p l = some a) : ∀ b ∈ l, p b → a.2 ≤ b.2 := by
  induction l with
  | nil => simp [findFirst] at h
  | cons y t ih =>
    by_cases hy : p y
    · rw [findFirst, if_pos hy] at h
      cases h
      intro b hb _
      rcases List.mem_cons.1 hb with hb | hb
      · exact hb ▸ le_refl _
      · exact List.rel_of_sorted_cons hs b hb
    · rw [findFirst, if_neg hy] at h
      intro b hb hpb
      rcases List.mem_cons.1 hb with hb | hb
      · exact absurd (hb ▸ hpb) hy
      · exact ih hs.of_cons h b hb hpb

theorem sumVals_map_pair (f : String × ℚ → ℚ) (l : Weights) :
    sumVals (l.map (fun p => (p.1, f p))) = (l.map f).sum := by
  unfold sumVals
  rw [List.map_map]
  rfl

/-- When some unpinned issuer retains positive weight, the tentative
vector sums to `sum(fixed.values()) + max(0, 1 - sum(fixed.values()))`:
the residual capacity is fully redistributed. -/
theorem sumVals_tentative_of_free {init fixed : Weights} (hndI : keysNodup init)
    (hndF : keysNodup fixed) (hsub : ∀ j ∈ keysOf fixed, j ∈ keysOf init)
    (hft : freeTotalRaw init fixed ≠ 0) :
    sumVals (tentative init fixed) = sumVals fixed + max 0 (1 - sumVals fixed) := by
  have ht : tentative init fixed = init.map (fun p => (p.1, (lookup fixed p.1).getD
      (p.2 / freeTotalRaw init fixed * max 0 (1 - sumVals fixed)))) := by
    simp only [tentative, if_neg hft]
  rw [ht, sumVals_map_pair, sum_getD_split _ init fixed hndI hndF hsub]
  congr 1
  have hfun : ∀ q ∈ filterW (fun p => lookup fixed p.1 = none) init,
      q.2 / freeTotalRaw init fixed * max 0 (1 - sumVals fixed)
      = q.2 * ((freeTotalRaw init fixed)⁻¹ * max 0 (1 - sumVals fixed)) := by
    intro q _
    ring
  rw [List.map_congr_left hfun, List.sum_map_mul_right]
  show freeTotalRaw init fixed * _ = _
  rw [← mul_assoc, mul_inv_cancel₀ hft, one_mul]

/-- A free entry of the tentative vector is bounded by the residual
capacity `max(0, 1 - sum(fixed.values()))`, provided initial weights are
nonnegative. -/
theorem tentative_free_le_rem {init fixed : Weights} (hnn : ∀ p ∈ init, 0 ≤ p.2)
    {x : String × ℚ} (hx : x ∈ tentative init fixed) (hfree : lookup fixed x.1 = none) :
    x.2 ≤ max 0 (1 - sumVals fixed) := by
  unfold tentative at hx
  obtain ⟨q, hq, he⟩ := List.mem_map.1 hx
  have hx1 : x.1 = q.1 := by rw [← he]
  have hfq : lookup fixed q.1 = none := hx1 ▸ hfree
  have hx2 : x.2 = q.2 / (if freeTotalRaw init fixed = 0 then 1 else freeTotalRaw init fixed)
      * max 0 (1 - sumVals fixed) := by
    rw [← he]
    simp [hfq]
  have hq2 : 0 ≤ q.2 := hnn q hq
  have hqmem : q ∈ filterW (fun p => lookup fixed p.1 = none) init :=
    mem_filterW.2 ⟨hq, hfq⟩
  have hqle : q.2 ≤ freeTotalRaw init fixed := by
    unfold freeTotalRaw
    apply List.single_le_sum
    · intro y hy
      obtain ⟨r, hr, hre⟩ := List.mem_map.1 hy
      exact hre ▸ hnn r (mem_filterW.1 hr).1
    · exact List.mem_map.2 ⟨q, hqmem, rfl⟩
  by_cases hz : freeTotalRaw init fixed = 0
  · have : q.2 = 0 := le_antisymm (hz ▸ hqle) hq2
    rw [hx2, if_pos hz, this]
    simp [le_max_left]
  · rw [hx2, if_neg hz]
    have hpos : 0 < freeTotalRaw init fixed := lt_of_le_of_ne (le_trans hq2 hqle) (Ne.symm hz)
    have hdiv : q.2 / freeTotalRaw init fixed ≤ 1 := (div_le_one hpos).2 hqle
    calc q.2 / freeTotalRaw init fixed * max 0 (1 - sumVals fixed)
        ≤ 1 * max 0 (1 - sumVals fixed) := by
          apply mul_le_mul_of_nonneg_right hdiv (le_max_left _ _)
      _ = max 0 (1 - sumVals fixed) := one_mul _

/-- A pinned entry of the tentative vector carries its pinned value. -/
theorem tentative_pinned_val {init fixed : Weights} {x : String × ℚ} {v : ℚ}
    (hx : x ∈ tentative init fixed) (hpin : lookup fixed x.1 = some v) : x.2 = v := by
  unfold tentative at hx
  obtain ⟨q, _, he⟩ := List.mem_map.1 hx
  have hx1 : x.1 = q.1 := by rw [← he]
  have h2 : lookup fixed q.1 = some v := hx1 ▸ hpin
  rw [← he]
  simp [h2]

/-! Lemmas about `pinBig`, the exception-cap pinning pass. -/
theorem lookup_pinBig_of_some {init fixed : Weights} {exc : ℚ} {k : String} {v : ℚ}
    (h : lookup fixed k = some v) : lookup (pinBig init exc fixed) k = some v := by
  induction init generalizing fixed with
  | nil => exact h
  | cons p t ih =>
    rw [pinBig, List.foldl_cons]
    by_cases hc : lookup fixed p.1 = none ∧ 1/10 < p.2
    · rw [if_pos hc]
      have hne : k ≠ p.1 := by
        intro hh
        rw [← hh, h] at hc
        exact absurd hc.1 (by simp)
      exact ih (by rw [lookup_dinsert_ne _ hne]; exact h)
    · rw [if_neg hc]
      exact ih h

theorem keysNodup_pinBig {init fixed : Weights} {exc : ℚ} (h : keysNodup fixed) :
    keysNodup (pinBig init exc fixed) := by
  induction init generalizing fixed with
  | nil => exact h
  | cons p t ih =>
    rw [pinBig, List.foldl_cons]
    by_cases hc : lookup fixed p.1 = none ∧ 1/10 < p.2
    · rw [if_pos hc]
      exact ih (keysNodup_dinsert _ h)
    · rw [if_neg hc]
      exact ih h

theorem mem_keysOf_pinBig {init fixed : Weights} {exc : ℚ} {j : String}
    (h : j ∈ keysOf (pinBig init exc fixed)) : j ∈ keysOf fixed ∨ j ∈ keysOf init := by
  induction init generalizing fixed with
  | nil => exact Or.inl h
  | cons p t ih =>
    rw [pinBig, List.foldl_cons] at h
    by_cases hc : lookup fixed p.1 = none ∧ 1/10 < p.2
    · rw [if_pos hc] at h
      rcases ih h with h1 | h1
      · rcases mem_keysOf_dinsert h1 with h2 | h2
        · exact Or.inl h2
        · exact Or.inr (by rw [keysOf_cons, h2]; simp)
      · exact Or.inr (List.mem_cons_of_mem _ h1)
    · rw [if_neg hc] at h
      rcases ih h with h1 | h1
      · exact Or.inl h1
      · exact Or.inr (List.mem_cons_of_mem _ h1)

theorem mem_vals_pinBig {init fixed : Weights} {exc x : ℚ}
    (h : x ∈ (pinBig init exc fixed).map Prod.snd) :
    x ∈ fixed.map Prod.snd ∨ x = exc := by
  induction init generalizing fixed with
  | nil => exact Or.inl h
  | cons p t ih =>
    rw [pinBig, List.foldl_cons] at h
    by_cases hc : lookup fixed p.1 = none ∧ 1/10 < p.2
    · rw [if_pos hc] at h
      rcases ih h with h1 | h1
      · exact mem_vals_dinsert h1
      · exact Or.inr h1
    · rw [if_neg hc] at h
      exact ih h

theorem length_le_pinBig {init fixed : Weights} {exc : ℚ} :
    fixed.length ≤ (pinBig init exc fixed).length := by
  induction init generalizing fixed with
  | nil => exact le_refl _
  | cons p t ih =>
    rw [pinBig, List.foldl_cons]
    by_cases hc : lookup fixed p.1 = none ∧ 1/10 < p.2
    · rw [if_pos hc]
      refine le_trans ?_ ih
      rw [length_dinsert_of_not_mem _ (lookup_eq_none_iff.1 hc.1)]
      exact Nat.le_succ _
    · rw [if_neg hc]
      exact ih

theorem lookup_pinBig_big {init fixed : Weights} {exc : ℚ} :
    ∀ p ∈ init, 1/10 < p.2 → lookup (pinBig init exc fixed) p.1 ≠ none := by
  induction init generalizing fixed with
  | nil => intro p hp; simp at hp
  | cons q t ih =>
    intro p hp hbig
    rw [pinBig, List.foldl_cons]
    rcases List.mem_cons.1 hp with hp | hp
    · subst hp
      by_cases hc : lookup fixed p.1 = none ∧ 1/10 < p.2
      · rw [if_pos hc]
        have h1 : lookup (dinsert fixed p.1 exc) p.1 = some exc := lookup_dinsert_self _ _
        change lookup (pinBig t exc (dinsert fixed p.1 exc)) p.1 ≠ none
        rw [lookup_pinBig_of_some h1]
        simp
      · rw [if_neg hc]
        have h0 : lookup fixed p.1 ≠ none := by
          intro hh
          exact hc ⟨hh, hbig⟩
        cases hh : lookup fixed p.1 with
        | none => exact absurd hh h0
        | some v =>
          change lookup (pinBig t exc fixed) p.1 ≠ none
          rw [lookup_pinBig_of_some hh]
          simp
    · by_cases hc : lookup fixed q.1 = none ∧ 1/10 < q.2
      · rw [if_pos hc]
        exact ih p hp hbig
      · rw [if_neg hc]
        exact ih p hp hbig

theorem pinBig_eq_self {init fixed : Weights} {exc : ℚ}
    (h : ∀ p ∈ init, 1/10 < p.2 → lookup fixed p.1 ≠ none) :
    pinBig init exc fixed = fixed := by
  induction init with
  | nil => rfl
  | cons p t ih =>
    rw [pinBig, List.foldl_cons]
    have hc : ¬(lookup fixed p.1 = none ∧ 1/10 < p.2) := by
      intro hc
      exact h p (by simp) hc.2 hc.1
    rw [if_neg hc]
    exact ih (fun q hq => h q (List.mem_cons_of_mem _ hq))

theorem sum_map_filterW_le {l : Weights} (q : String × ℚ → Prop) [DecidablePred q]
    (hnn : ∀ p ∈ l, 0 ≤ p.2) :
    ((filterW q l).map Prod.snd).sum ≤ (l.map Prod.snd).sum := by
  induction l with
  | nil => simp [filterW]
  | cons p t ih =>
    have ih2 := ih (fun r hr => hnn r (List.mem_cons_of_mem _ hr))
    by_cases hq : q p
    · rw [filterW, if_pos hq, List.map_cons, List.sum_cons, List.map_cons, List.sum_cons]
      exact add_le_add_left ih2 _
    · rw [filterW, if_neg hq, List.map_cons, List.sum_cons]
      calc ((filterW q t).map Prod.snd).sum ≤ (t.map Prod.snd).sum := ih2
        _ ≤ p.2 + (t.map Prod.snd).sum := le_add_of_nonneg_left (hnn p (by simp))

theorem sumVals_pinBig_le {init fixed : Weights} {exc : ℚ} (hexc : exc ≤ 1/10)
    (hnn : ∀ p ∈ init, 0 ≤ p.2) :
    sumVals (pinBig init exc fixed)
      ≤ sumVals fixed + ((filterW (fun p => 1/10 < p.2) init).map Prod.snd).sum := by
  induction init generalizing fixed with
  | nil => simp [pinBig, filterW]
  | cons p t ih =>
    have hnn2 : ∀ r ∈ t, 0 ≤ r.2 := fun r hr => hnn r (List.mem_cons_of_mem _ hr)
    rw [pinBig, List.foldl_cons]
    by_cases hc : lookup fixed p.1 = none ∧ 1/10 < p.2
    · rw [if_pos hc, filterW, if_pos hc.2, List.map_cons, List.sum_cons]
      have h1 : sumVals (dinsert fixed p.1 exc) = sumVals fixed + exc :=
        sumVals_dinsert_of_not_mem _ (lookup_eq_none_iff.1 hc.1)
      calc sumVals (pinBig t exc (dinsert fixed p.1 exc))
          ≤ sumVals (dinsert fixed p.1 exc)
            + ((filterW (fun r => 1/10 < r.2) t).map Prod.snd).sum := ih hnn2
        _ = sumVals fixed + exc + ((filterW (fun r => 1/10 < r.2) t).map Prod.snd).sum := by
            rw [h1]
        _ ≤ sumVals fixed + (p.2 + ((filterW (fun r => 1/10 < r.2) t).map Prod.snd).sum) := by
            have : exc ≤ p.2 := le_of_lt (lt_of_le_of_lt hexc hc.2)
            linarith
    · rw [if_neg hc]
      by_cases hbig : 1/10 < p.2
      · rw [filterW, if_pos hbig, List.map_cons, List.sum_cons]
        calc sumVals (pinBig t exc fixed)
            ≤ sumVals fixed + ((filterW (fun r => 1/10 < r.2) t).map Prod.snd).sum := ih hnn2
          _ ≤ sumVals fixed + (p.2 + ((filterW (fun r => 1/10 < r.2) t).map Prod.snd).sum) := by
              have : (0:ℚ) ≤ p.2 := hnn p (by simp)
              linarith
      · rw [filterW, if_neg hbig]
        exact ih hnn2

/-! Analysis of single passes of the two capping loops. -/
theorem dailyStep_done_elim {init fixed t ff : Weights} {cap exc : ℚ} {e : Bool}
    (h : dailyStep init cap exc fixed = .done t ff e) :
    ff = pinBig init exc fixed ∧ t = tentative init (pinBig init exc fixed) ∧
    (e = false →
      ((filterW (fun p => 1/20 < p.2) (tentative init (pinBig init exc fixed))).map
        Prod.snd).sum ≤ 2/5) ∧
    (e = true →
      findFirst (fun p => lookup (pinBig init exc fixed) p.1 ≠ some exc)
        (List.insertionSort wLE
          (filterW (fun p => 1/20 < p.2) (tentative init (pinBig init exc fixed)))) = none) := by
  simp only [dailyStep] at h
  by_cases hagg : ((filterW (fun p => 1/20 < p.2) (tentative init (pinBig init exc fixed))).map
      Prod.snd).sum ≤ 2/5
  · rw [if_pos hagg] at h
    injection h with h1 h2 h3
    exact ⟨h2.symm, h1.symm, fun _ => hagg, fun he => by rw [← h3] at he; simp at he⟩
  · rw [if_neg hagg] at h
    cases hf : findFirst (fun p => lookup (pinBig init exc fixed) p.1 ≠ some exc)
        (List.insertionSort wLE
          (filterW (fun p => 1/20 < p.2) (tentative init (pinBig init exc fixed)))) with
    | none =>
      rw [hf] at h
      injection h with h1 h2 h3
      exact ⟨h2.symm, h1.symm, fun he => by rw [← h3] at he; simp at he, fun _ => rfl⟩
    | some c =>
      rw [hf] at h
      exact absurd h (by simp)

theorem dailyStep_cont_elim {init fixed f2 : Weights} {cap exc : ℚ}
    (h : dailyStep init cap exc fixed = .cont f2) :
    ∃ c : String × ℚ,
      f2 = dinsert (pinBig init exc fixed) c.1 cap ∧
      c ∈ filterW (fun p => 1/20 < p.2) (tentative init (pinBig init exc fixed)) ∧
      lookup (pinBig init exc fixed) c.1 ≠ some exc ∧
      (∀ b ∈ filterW (fun p => 1/20 < p.2) (tentative init (pinBig init exc fixed)),
        lookup (pinBig init exc fixed) b.1 ≠ some exc → c.2 ≤ b.2) ∧
      ¬((filterW (fun p => 1/20 < p.2) (tentative init (pinBig init exc fixed))).map
        Prod.snd).sum ≤ 2/5 := by
  simp only [dailyStep] at h
  by_cases hagg : ((filterW (fun p => 1/20 < p.2) (tentative init (pinBig init exc fixed))).map
      Prod.snd).sum ≤ 2/5
  · rw [if_pos hagg] at h
    exact absurd h (by simp)
  · rw [if_neg hagg] at h
    cases hf : findFirst (fun p => lookup (pinBig init exc fixed) p.1 ≠ some exc)
        (List.insertionSort wLE
          (filterW (fun p => 1/20 < p.2) (tentative init (pinBig init exc fixed)))) with
    | none =>
      rw [hf] at h
      exact absurd h (by simp)
    | some c =>
      rw [hf] at h
      injection h with h1
      refine ⟨c, h1.symm, ?_, ?_, ?_, hagg⟩
      · have := (findFirst_eq_some hf).1
        exact (List.mem_insertionSort wLE).1 this
      · exact (findFirst_eq_some hf).2
      · intro b hb hbne
        exact findFirst_sorted_min (List.sorted_insertionSort wLE _) hf b
          ((List.mem_insertionSort wLE).2 hb) hbne

theorem quarterlyStep_done_elim {init fixed t ff : Weights} {e : Bool}
    (h : quarterlyStep init fixed = .done t ff e) :
    t = tentative init fixed ∧ ff = fixed ∧
    filterW (fun p => lookup fixed p.1 = none ∧ 9/200 < p.2) (tentative init fixed) = [] := by
  simp only [quarterlyStep] at h
  cases hs : List.insertionSort wGE
      (filterW (fun p => lookup fixed p.1 = none ∧ 9/200 < p.2) (tentative init fixed)) with
  | nil =>
    rw [hs] at h
    injection h with h1 h2 h3
    have hperm := List.perm_insertionSort wGE
      (filterW (fun p => lookup fixed p.1 = none ∧ 9/200 < p.2) (tentative init fixed))
    rw [hs] at hperm
    exact ⟨h1.symm, h2.symm, hperm.symm.eq_nil⟩
  | cons q rest =>
    rw [hs] at h
    exact absurd h (by simp)

theorem quarterlyStep_cont_elim {init fixed f2 : Weights}
    (h : quarterlyStep init fixed = .cont f2) :
    ∃ q : String × ℚ,
      f2 = dinsert fixed q.1 (9/200) ∧
      q ∈ filterW (fun p => lookup fixed p.1 = none ∧ 9/200 < p.2) (tentative init fixed) ∧
      (∀ b ∈ filterW (fun p => lookup fixed p.1 = none ∧ 9/200 < p.2) (tentative init fixed),
        b.2 ≤ q.2) := by
  simp only [quarterlyStep] at h
  cases hs : List.insertionSort wGE
      (filterW (fun p => lookup fixed p.1 = none ∧ 9/200 < p.2) (tentative init fixed)) with
  | nil =>
    rw [hs] at h
    exact absurd h (by simp)
  | cons q rest =>
    rw [hs] at h
    injection h with h1
    refine ⟨q, h1.symm, ?_, ?_⟩
    · have : q ∈ List.insertionSort wGE
          (filterW (fun p => lookup fixed p.1 = none ∧ 9/200 < p.2) (tentative init fixed)) := by
        rw [hs]
        simp
      exact (List.mem_insertionSort wGE).1 this
    · intro b hb
      have hbs : b ∈ List.insertionSort wGE
          (filterW (fun p => lookup fixed p.1 = none ∧ 9/200 < p.2) (tentative init fixed)) :=
        (List.mem_insertionSort wGE).2 hb
      rw [hs] at hbs
      have hsorted := List.sorted_insertionSort wGE
        (filterW (fun p => lookup fixed p.1 = none ∧ 9/200 < p.2) (tentative init fixed))
      rw [hs] at hsorted
      rcases List.mem_cons.1 hbs with hbq | hbq
      · exact hbq ▸ le_refl _
      · exact List.rel_of_sorted_cons hsorted b hbq

/-- Generic elimination principle: a terminating daily run passed through
an invariant-preserving chain of pins and ended with a returning pass. -/
theorem dailyRun_elim {init : Weights} {cap exc : ℚ} (P : Weights → Prop)
    (hstep : ∀ f f2, P f → dailyStep init cap exc f = .cont f2 → P f2) :
    ∀ (fuel : Nat) (fixed t ff : Weights) (e : Bool), P fixed →
      dailyRun init cap exc fuel fixed = some (t, ff, e) →
      ∃ f, P f ∧ dailyStep init cap exc f = .done t ff e := by
  intro fuel
  induction fuel with
  | zero =>
    intro fixed t ff e _ h
    simp [dailyRun] at h
  | succ n ih =>
    intro fixed t ff e hP h
    rw [dailyRun] at h
    cases hs : dailyStep init cap exc fixed with
    | done t2 f2 e2 =>
      rw [hs] at h
      injection h with h1
      injection h1 with ha hb
      injection hb with hb hc
      subst ha
      subst hb
      subst hc
      exact ⟨fixed, hP, hs⟩
    | cont f2 =>
      rw [hs] at h
      exact ih f2 t ff e (hstep fixed f2 hP hs) h

theorem quarterlyRun_elim {init : Weights} (P : Weights → Prop)
    (hstep : ∀ f f2, P f → quarterlyStep init f = .cont f2 → P f2) :
    ∀ (fuel : Nat) (fixed t ff : Weights), P fixed →
      quarterlyRun init fuel fixed = some (t, ff) →
      ∃ f e, P f ∧ quarterlyStep init f = .done t ff e := by
  intro fuel
  induction fuel with
  | zero =>
    intro fixed t ff _ h
    simp [quarterlyRun] at h
  | succ n ih =>
    intro fixed t ff hP h
    rw [quarterlyRun] at h
    cases hs : quarterlyStep init fixed with
    | done t2 f2 e2 =>
      rw [hs] at h
      injection h with h1
      injection h1 with ha hb
      subst ha
      subst hb
      exact ⟨fixed, e2, hP, hs⟩
    | cont f2 =>
      rw [hs] at h
      exact ih f2 t ff (hstep fixed f2 hP hs) h

/-- A chosen pin candidate of the daily loop is in fact unpinned: a pinned
issuer carries value `cap` or `exc`, both incompatible with being an
eligible over-5% candidate when `cap ≤ 5%`. -/
theorem daily_chosen_fresh {init f1 : Weights} {cap exc : ℚ} {c : String × ℚ}
    (hcap : cap ≤ 1/20)
    (hvals : ∀ x ∈ f1.map Prod.snd, x = cap ∨ x = exc)
    (hc5 : c ∈ filterW (fun p => 1/20 < p.2) (tentative init f1))
    (hne : lookup f1 c.1 ≠ some exc) :
    lookup f1 c.1 = none := by
  obtain ⟨hct, hcgt⟩ := mem_filterW.1 hc5
  cases hl : lookup f1 c.1 with
  | none => rfl
  | some v =>
    have hv : c.2 = v := tentative_pinned_val hct hl
    have hvm : v ∈ f1.map Prod.snd := List.mem_map.2 ⟨(c.1, v), lookup_mem hl, rfl⟩
    rcases hvals v hvm with h | h
    · rw [hv, h] at hcgt
      linarith
    · rw [h] at hl
      exact absurd hl hne

/-- Pinning an unpinned issuer whose tentative weight exceeds `θ > 0`
witnesses residual capacity above `θ`, hence `sum(fixed.values()) < 1 - θ`. -/
theorem sumVals_lt_of_free_gt {init f1 : Weights} {c : String × ℚ} {θ : ℚ}
    (hnn : ∀ p ∈ init, 0 ≤ p.2) (hθ : 0 < θ)
    (hct : c ∈ tentative init f1) (hgt : θ < c.2) (hfree : lookup f1 c.1 = none) :
    sumVals f1 < 1 - θ := by
  have hle := tentative_free_le_rem hnn hct hfree
  have hrem : θ < max 0 (1 - sumVals f1) := lt_of_lt_of_le hgt hle
  rcases le_or_lt (1 - sumVals f1) 0 with h | h
  · rw [max_eq_left h] at hrem
    linarith
  · rw [max_eq_right (le_of_lt h)] at hrem
    linarith

theorem mem_keysOf_tentative {init f1 : Weights} {x : String × ℚ}
    (hx : x ∈ tentative init f1) : x.1 ∈ keysOf init := by
  unfold tentative at hx
  obtain ⟨q, hq, he⟩ := List.mem_map.1 hx
  have : x.1 = q.1 := by rw [← he]
  exact this ▸ List.mem_map.2 ⟨q, hq, rfl⟩

theorem dailyInv_nil {init : Weights} {cap exc : ℚ} : DailyInv init cap exc [] :=
  ⟨List.nodup_nil, fun j hj => absurd hj (by simp [keysOf]), fun x hx => absurd hx (by simp)⟩

theorem dailyInv_pinBig {init fixed : Weights} {cap exc : ℚ}
    (h : DailyInv init cap exc fixed) : DailyInv init cap exc (pinBig init exc fixed) := by
  refine ⟨keysNodup_pinBig h.1, ?_, ?_⟩
  · intro j hj
    rcases mem_keysOf_pinBig hj with h1 | h1
    · exact h.2.1 j h1
    · exact h1
  · intro x hx
    rcases mem_vals_pinBig hx with h1 | h1
    · exact h.2.2 x h1
    · exact Or.inr h1

theorem dailyInv_cont {init fixed f2 : Weights} {cap exc : ℚ} (hcap : cap ≤ 1/20)
    (hInv : DailyInv init cap exc fixed)
    (hs : dailyStep init cap exc fixed = .cont f2) :
    DailyInv init cap exc f2 ∧ fixed.length + 1 ≤ f2.length := by
  obtain ⟨c, hf2, hc5, hcne, _, _⟩ := dailyStep_cont_elim hs
  have hInv1 := dailyInv_pinBig hInv
  have hfresh : lookup (pinBig init exc fixed) c.1 = none :=
    daily_chosen_fresh hcap hInv1.2.2 hc5 hcne
  have hfreshmem : c.1 ∉ keysOf (pinBig init exc fixed) := lookup_eq_none_iff.1 hfresh
  subst hf2
  refine ⟨⟨keysNodup_dinsert _ hInv1.1, ?_, ?_⟩, ?_⟩
  · intro j hj
    rcases mem_keysOf_dinsert hj with h1 | h1
    · exact hInv1.2.1 j h1
    · exact h1 ▸ mem_keysOf_tentative (mem_filterW.1 hc5).1
  · intro x hx
    rcases mem_vals_dinsert hx with h1 | h1
    · exact hInv1.2.2 x h1
    · exact Or.inl h1
  · rw [length_dinsert_of_not_mem _ hfreshmem]
    have := @length_le_pinBig init fixed exc
    omega

theorem length_le_of_keys_subset {m : Weights} {l : List String} (hnd : keysNodup m)
    (hsub : ∀ j ∈ keysOf m, j ∈ l) : m.length ≤ l.length := by
  have h1 : m.length = (keysOf m).length := (List.length_map _ _).symm
  have h2 : (keysOf m).length = (keysOf m).toFinset.card :=
    (List.toFinset_card_of_nodup hnd).symm
  have h3 : (keysOf m).toFinset ⊆ l.toFinset := by
    intro a ha
    rw [List.mem_toFinset] at ha ⊢
    exact hsub a ha
  have h4 : (keysOf m).toFinset.card ≤ l.toFinset.card := Finset.card_le_card h3
  have h5 : l.toFinset.card ≤ l.length := l.toFinset_card_le
  omega

/-- The daily loop returns within `|init| + 1` passes: every pass that does
not return permanently pins a fresh issuer drawn from the table. -/
theorem dailyRun_total {init : Weights} {cap exc : ℚ} (hcap : cap ≤ 1/20) :
    ∀ (fuel : Nat) (fixed : Weights), DailyInv init cap exc fixed →
      init.length + 1 ≤ fuel + fixed.length →
      (dailyRun init cap exc fuel fixed).isSome = true := by
  intro fuel
  induction fuel with
  | zero =>
    intro fixed hInv hlen
    exfalso
    have hle : fixed.length ≤ init.length := by
      have := length_le_of_keys_subset hInv.1 hInv.2.1
      calc fixed.length ≤ (keysOf init).length := this
        _ = init.length := List.length_map _ _
    omega
  | succ n ih =>
    intro fixed hInv hlen
    rw [dailyRun]
    cases hs : dailyStep init cap exc fixed with
    | done t f e => simp
    | cont f2 =>
      obtain ⟨hInv2, hlen2⟩ := dailyInv_cont hcap hInv hs
      exact ih f2 hInv2 (by omega)

theorem quarterlyInv_cont {init fixed f2 : Weights}
    (hInv : QuarterlyInv init fixed)
    (hs : quarterlyStep init fixed = .cont f2) :
    QuarterlyInv init f2 ∧ fixed.length + 1 ≤ f2.length := by
  obtain ⟨q, hf2, hq, _⟩ := quarterlyStep_cont_elim hs
  obtain ⟨hqt, hqfree, _⟩ := mem_filterW.1 hq
  have hfreshmem : q.1 ∉ keysOf fixed := lookup_eq_none_iff.1 hqfree
  subst hf2
  refine ⟨⟨keysNodup_dinsert _ hInv.1, ?_⟩, ?_⟩
  · intro j hj
    rcases mem_keysOf_dinsert hj with h1 | h1
    · exact hInv.2 j h1
    · exact h1 ▸ mem_keysOf_tentative hqt
  · rw [length_dinsert_of_not_mem _ hfreshmem]

theorem quarterlyRun_total {init : Weights} :
    ∀ (fuel : Nat) (fixed : Weights), QuarterlyInv init fixed →
      init.length + 1 ≤ fuel + fixed.length →
      (quarterlyRun init fuel fixed).isSome = true := by
  intro fuel
  induction fuel with
  | zero =>
    intro fixed hInv hlen
    exfalso
    have hle : fixed.length ≤ init.length := by
      have := length_le_of_keys_subset hInv.1 hInv.2
      calc fixed.length ≤ (keysOf init).length := this
        _ = init.length := List.length_map _ _
    omega
  | succ n ih =>
    intro fixed hInv hlen
    rw [quarterlyRun]
    cases hs : quarterlyStep init fixed with
    | done t f e => simp
    | cont f2 =>
      obtain ⟨hInv2, hlen2⟩ := quarterlyInv_cont hInv hs
      exact ih f2 hInv2 (by omega)

/-! Lemmas about the initial quarterly `fixed` map built by folding
`fixed[row["issuer"]] = top_cap` over the leading rows. -/
theorem keysNodup_foldl_dinsert (v : ℚ) (l : Weights) {f0 : Weights} (h : keysNodup f0) :
    keysNodup (l.foldl (fun f p => dinsert f p.1 v) f0) := by
  induction l generalizing f0 with
  | nil => exact h
  | cons p t ih => exact ih (keysNodup_dinsert _ h)

theorem mem_keysOf_foldl_dinsert {v : ℚ} {l : Weights} {f0 : Weights} {j : String}
    (h : j ∈ keysOf (l.foldl (fun f p => dinsert f p.1 v) f0)) :
    j ∈ keysOf f0 ∨ j ∈ keysOf l := by
  induction l generalizing f0 with
  | nil => exact Or.inl h
  | cons p t ih =>
    rcases ih h with h1 | h1
    · rcases mem_keysOf_dinsert h1 with h2 | h2
      · exact Or.inl h2
      · exact Or.inr (by rw [keysOf_cons, h2]; simp)
    · exact Or.inr (List.mem_cons_of_mem _ h1)

theorem mem_vals_foldl_dinsert {v x : ℚ} {l : Weights} {f0 : Weights}
    (h : x ∈ (l.foldl (fun f p => dinsert f p.1 v) f0).map Prod.snd) :
    x ∈ f0.map Prod.snd ∨ x = v := by
  induction l generalizing f0 with
  | nil => exact Or.inl h
  | cons p t ih =>
    rcases ih h with h1 | h1
    · exact mem_vals_dinsert h1
    · exact Or.inr h1

theorem length_dinsert_le (m : Weights) (k : String) (v : ℚ) :
    (dinsert m k v).length ≤ m.length + 1 := by
  rw [dinsert]
  by_cases hs : (lookup m k).isSome = true
  · rw [if_pos hs]
    simp
  · rw [if_neg hs]
    simp

theorem length_foldl_dinsert_le (v : ℚ) (l : Weights) (f0 : Weights) :
    (l.foldl (fun f p => dinsert f p.1 v) f0).length ≤ f0.length + l.length := by
  induction l generalizing f0 with
  | nil => simp
  | cons p t ih =>
    calc (List.foldl (fun f p => dinsert f p.1 v) (dinsert f0 p.1 v) t).length
        ≤ (dinsert f0 p.1 v).length + t.length := ih _
      _ ≤ f0.length + 1 + t.length := by
          have := length_dinsert_le f0 p.1 v
          omega
      _ = f0.length + (p :: t).length := by simp; omega

theorem sumVals_foldl_dinsert_le {v : ℚ} (hv : 0 ≤ v) (l : Weights) :
    sumVals (l.foldl (fun f p => dinsert f p.1 v) []) ≤ l.length * v := by
  set m := l.foldl (fun f p => dinsert f p.1 v) [] with hm
  have hvals : ∀ x ∈ m.map Prod.snd, x ≤ v := by
    intro x hx
    rcases mem_vals_foldl_dinsert hx with h1 | h1
    · simp at h1
    · exact h1 ▸ le_refl v
  have hlen : m.length ≤ l.length := by
    have := length_foldl_dinsert_le v l []
    simpa using this
  calc sumVals m ≤ (m.map Prod.snd).length • v := List.sum_le_card_nsmul _ v hvals
    _ = m.length * v := by rw [List.length_map, nsmul_eq_mul]
    _ ≤ l.length * v := by
        apply mul_le_mul_of_nonneg_right _ hv
        exact_mod_cast hlen

theorem paramsForRegion_cap (region : String) : (paramsForRegion region).1 = 9/200 := by
  unfold paramsForRegion
  by_cases h : upper (if region = "" then "CPH" else region) = "STO" <;> simp [h]

theorem mem_keysOf_take {l : Weights} {n : Nat} {j : String}
    (h : j ∈ keysOf (l.take n)) : j ∈ keysOf l := by
  obtain ⟨p, hp, he⟩ := List.mem_map.1 h
  exact he ▸ List.mem_map.2 ⟨p, List.mem_of_mem_take hp, rfl⟩

theorem quarterlyInv_initFixed (region : String) (issuers : Weights) :
    QuarterlyInv (quarterlyInitFixed region issuers).1 (quarterlyInitFixed region issuers).2 := by
  unfold quarterlyInitFixed
  refine ⟨keysNodup_foldl_dinsert _ _ List.nodup_nil, ?_⟩
  intro j hj
  rcases mem_keysOf_foldl_dinsert hj with h1 | h1
  · exact absurd h1 (by simp [keysOf])
  · exact mem_keysOf_take h1

theorem isSome_option_map {α β : Type} (f : α → β) (o : Option α)
    (h : o.isSome = true) : (o.map f).isSome = true := by
  cases o
  · simp at h
  · simp

/-- The fuel used by the wrappers suffices for both loops. -/
theorem applyDailyCapping_isSome (issuers : Weights) {cap : ℚ} (exc : ℚ)
    (hcap : cap ≤ 1/20) : (applyDailyCapping issuers cap exc).isSome = true := by
  unfold applyDailyCapping
  exact isSome_option_map _ _ (dailyRun_total hcap _ [] dailyInv_nil (by simp))

theorem applyQuarterlyExceptions_isSome (region : String) (issuers : Weights) :
    (applyQuarterlyExceptions region issuers).isSome = true := by
  unfold applyQuarterlyExceptions
  apply isSome_option_map
  apply quarterlyRun_total _ _ (quarterlyInv_initFixed region issuers)
  have hlen : (quarterlyInitFixed region issuers).1.length = issuers.length := by
    unfold quarterlyInitFixed
    exact (List.perm_insertionSort wGE issuers).length_eq
  omega

/-- C5: for every issuer table, the daily capping loop (run with the
parameter set of any region, whose standard cap is 0.045) and the
quarterly exception loop both return within `issuer count + 1` passes of
their `while True` loops; each pass either returns a tentative vector
(including the no-eligible-candidate escape hatch, which returns the
tentative vector as-is) or pins one more issuer. -/
theorem C5_loops_terminate (region : String) (issuers : Weights) :
    (applyDailyCapping issuers (paramsForRegion region).1 (paramsForRegion region).2).isSome
      = true
    ∧ (applyQuarterlyExceptions region issuers).isSome = true := by
  constructor
  · apply applyDailyCapping_isSome
    rw [paramsForRegion_cap]
    norm_num
  · exact applyQuarterlyExceptions_isSome region issuers

/-- C3: whenever a daily pass finds the over-5% aggregate above 40% and
some over-5% issuer is not pinned at the exception cap, the pass continues
by pinning, at the standard cap `0.045`, an eligible issuer of smallest
tentative weight. -/
theorem C3_daily_pins_smallest_at_standard_cap (region : String) (init fixed : Weights)
    (hagg : ¬((filterW (fun p => 1/20 < p.2)
        (tentative init (pinBig init (paramsForRegion region).2 fixed))).map Prod.snd).sum ≤ 2/5)
    (hex : ∃ p ∈ filterW (fun p => 1/20 < p.2)
        (tentative init (pinBig init (paramsForRegion region).2 fixed)),
        lookup (pinBig init (paramsForRegion region).2 fixed) p.1
          ≠ some (paramsForRegion region).2) :
    (findFirst (fun p => lookup (pinBig init (paramsForRegion region).2 fixed) p.1
        ≠ some (paramsForRegion region).2)
      (List.insertionSort wLE (filterW (fun p => 1/20 < p.2)
        (tentative init (pinBig init (paramsForRegion region).2 fixed))))).isSome = true
    ∧ ∀ c : String × ℚ,
      findFirst (fun p => lookup (pinBig init (paramsForRegion region).2 fixed) p.1
          ≠ some (paramsForRegion region).2)
        (List.insertionSort wLE (filterW (fun p => 1/20 < p.2)
          (tentative init (pinBig init (paramsForRegion region).2 fixed)))) = some c →
      c ∈ filterW (fun p => 1/20 < p.2)
        (tentative init (pinBig init (paramsForRegion region).2 fixed))
      ∧ lookup (pinBig init (paramsForRegion region).2 fixed) c.1
          ≠ some (paramsForRegion region).2
      ∧ dailyStep init (paramsForRegion region).1 (paramsForRegion region).2 fixed
          = .cont (dinsert (pinBig init (paramsForRegion region).2 fixed) c.1 (9/200))
      ∧ (∀ b ∈ filterW (fun p => 1/20 < p.2)
          (tentative init (pinBig init (paramsForRegion region).2 fixed)),
        lookup (pinBig init (paramsForRegion region).2 fixed) b.1
            ≠ some (paramsForRegion region).2 → c.2 ≤ b.2) := by
  constructor
  · obtain ⟨p, hp5, hpne⟩ := hex
    obtain ⟨c, hc⟩ := findFirst_isSome
      (fun q => lookup (pinBig init (paramsForRegion region).2 fixed) q.1
        ≠ some (paramsForRegion region).2)
      ((List.mem_insertionSort wLE).2 hp5) hpne
    rw [hc]
    rfl
  · intro c hc
    refine ⟨(List.mem_insertionSort wLE).1 (findFirst_eq_some hc).1,
      (findFirst_eq_some hc).2, ?_, ?_⟩
    · have hs : dailyStep init (paramsForRegion region).1 (paramsForRegion region).2 fixed
          = .cont (dinsert (pinBig init (paramsForRegion region).2 fixed) c.1
              (paramsForRegion region).1) := by
        simp only [dailyStep]
        rw [if_neg hagg, hc]
      rw [hs, paramsForRegion_cap]
    · intro b hb hbne
      exact findFirst_sorted_min (List.sorted_insertionSort wLE _) hc b
        ((List.mem_insertionSort wLE).2 hb) hbne

/-- C3 (witness): on `c3tbl` the aggregate is 1 > 40%, B is the first
eligible candidate of smallest tentative weight 0.186, and the pass pins
B at 0.045. -/
theorem C3_witness :
    dailyStep c3tbl (paramsForRegion "CPH").1 (paramsForRegion "CPH").2 []
      = .cont (dinsert (pinBig c3tbl (paramsForRegion "CPH").2 []) "B" (9/200)) := by
  have hagg : ¬((filterW (fun p => 1/20 < p.2)
      (tentative c3tbl (pinBig c3tbl (paramsForRegion "CPH").2 []))).map Prod.snd).sum
      ≤ 2/5 := by
    norm_num +decide [c3tbl, pinBig, tentative, freeTotalRaw, sumVals, lookup, dinsert,
      keysOf, filterW, paramsForRegion, upper, max_eq_right, max_eq_left]
  have hex : ∃ p ∈ filterW (fun p => 1/20 < p.2)
      (tentative c3tbl (pinBig c3tbl (paramsForRegion "CPH").2 [])),
      lookup (pinBig c3tbl (paramsForRegion "CPH").2 []) p.1
        ≠ some (paramsForRegion "CPH").2 := by
    refine ⟨("B", 93/500), ?_, ?_⟩
    · norm_num +decide [c3tbl, pinBig, tentative, freeTotalRaw, sumVals, lookup, dinsert,
        keysOf, filterW, paramsForRegion, upper, max_eq_right, max_eq_left]
    · norm_num +decide [c3tbl, pinBig, lookup, dinsert, keysOf, paramsForRegion, upper]
  have hfind : findFirst (fun p => lookup (pinBig c3tbl (paramsForRegion "CPH").2 []) p.1
        ≠ some (paramsForRegion "CPH").2)
      (List.insertionSort wLE (filterW (fun p => 1/20 < p.2)
        (tentative c3tbl (pinBig c3tbl (paramsForRegion "CPH").2 []))))
      = some ("B", 93/500) := by
    norm_num +decide [c3tbl, pinBig, tentative, freeTotalRaw, sumVals, lookup, dinsert,
      keysOf, filterW, findFirst, List.insertionSort, List.orderedInsert, wLE,
      paramsForRegion, upper, max_eq_right, max_eq_left]
  exact ((C3_daily_pins_smallest_at_standard_cap "CPH" c3tbl [] hagg hex).2
    ("B", 93/500) hfind).2.2.1

theorem dailySumInv_nil {init : Weights} {cap exc : ℚ} : DailySumInv init cap exc [] :=
  ⟨dailyInv_nil, by simp [sumVals], Or.inl rfl⟩

theorem sumVals_pinBig_le_one {init fixed : Weights} {cap exc : ℚ}
    (hexc : exc ≤ 1/10) (hnn : ∀ p ∈ init, 0 ≤ p.2) (hsum : sumVals init = 1)
    (hS : DailySumInv init cap exc fixed) :
    sumVals (pinBig init exc fixed) ≤ 1 := by
  rcases hS.2.2 with h | h
  · subst h
    calc sumVals (pinBig init exc [])
        ≤ sumVals [] + ((filterW (fun p => 1/10 < p.2) init).map Prod.snd).sum :=
          sumVals_pinBig_le hexc hnn
      _ = ((filterW (fun p => 1/10 < p.2) init).map Prod.snd).sum := by simp [sumVals]
      _ ≤ (init.map Prod.snd).sum := sum_map_filterW_le _ hnn
      _ = 1 := hsum
  · rw [pinBig_eq_self h]
    exact hS.2.1

theorem dailySumInv_cont {init fixed f2 : Weights} {cap exc : ℚ}
    (hcap : cap ≤ 1/20)
    (hnn : ∀ p ∈ init, 0 ≤ p.2)
    (hS : DailySumInv init cap exc fixed)
    (hs : dailyStep init cap exc fixed = .cont f2) :
    DailySumInv init cap exc f2 := by
  obtain ⟨c, hf2, hc5, hcne, _, _⟩ := dailyStep_cont_elim hs
  have hInv1 := dailyInv_pinBig hS.1
  have hfresh : lookup (pinBig init exc fixed) c.1 = none :=
    daily_chosen_fresh hcap hInv1.2.2 hc5 hcne
  have hlt : sumVals (pinBig init exc fixed) < 1 - 1/20 := by
    apply sumVals_lt_of_free_gt hnn (by norm_num) (mem_filterW.1 hc5).1
      (mem_filterW.1 hc5).2 hfresh
  refine ⟨(dailyInv_cont hcap hS.1 hs).1, ?_, Or.inr ?_⟩
  · rw [hf2, sumVals_dinsert_of_not_mem _ (lookup_eq_none_iff.1 hfresh)]
    linarith
  · intro p hp hbig
    rw [hf2]
    by_cases hj : p.1 = c.1
    · rw [hj, lookup_dinsert_self]
      simp
    · rw [lookup_dinsert_ne _ hj]
      exact lookup_pinBig_big p hp hbig

/-- Core of the amended C1, daily variant: a terminating daily run whose
final pinned map leaves free issuers with nonzero total initial weight
returns a weight map summing exactly to 1. -/
theorem dailyRun_sum_one {init : Weights} {cap exc : ℚ}
    (hnd : keysNodup init) (hnn : ∀ p ∈ init, 0 ≤ p.2) (hsum : sumVals init = 1)
    (hcap : cap ≤ 1/20) (hexc : exc ≤ 1/10)
    {fuel : Nat} {t ff : Weights} {e : Bool}
    (hrun : dailyRun init cap exc fuel [] = some (t, ff, e))
    (hfree : freeTotalRaw init ff ≠ 0) :
    sumVals t = 1 := by
  obtain ⟨f, hPf, hdone⟩ := dailyRun_elim (DailySumInv init cap exc)
    (fun f f2 hP hs => dailySumInv_cont hcap hnn hP hs)
    fuel [] t ff e dailySumInv_nil hrun
  obtain ⟨hff, ht, _, _⟩ := dailyStep_done_elim hdone
  have hInv1 := dailyInv_pinBig hPf.1
  have hle : sumVals (pinBig init exc f) ≤ 1 := sumVals_pinBig_le_one hexc hnn hsum hPf
  subst hff
  rw [ht, sumVals_tentative_of_free hnd hInv1.1 hInv1.2.1 hfree,
    max_eq_right (by linarith)]
  ring

theorem quarterlySumInv_cont {init fixed f2 : Weights}
    (hnn : ∀ p ∈ init, 0 ≤ p.2)
    (hS : QuarterlySumInv init fixed)
    (hs : quarterlyStep init fixed = .cont f2) :
    QuarterlySumInv init f2 := by
  obtain ⟨q, hf2, hq, _⟩ := quarterlyStep_cont_elim hs
  obtain ⟨hqt, hqfree, hqgt⟩ := mem_filterW.1 hq
  have hlt : sumVals fixed < 1 - 9/200 :=
    sumVals_lt_of_free_gt hnn (by norm_num) hqt hqgt hqfree
  refine ⟨(quarterlyInv_cont hS.1 hs).1, ?_⟩
  rw [hf2, sumVals_dinsert_of_not_mem _ (lookup_eq_none_iff.1 hqfree)]
  linarith

theorem sumVals_quarterlyInitFixed_le (region : String) (issuers : Weights) :
    sumVals (quarterlyInitFixed region issuers).2 ≤ 7/20 := by
  unfold quarterlyInitFixed
  by_cases hr : upper region = "CPH" ∨ upper region = "HEL"
  · simp only [if_pos hr]
    calc sumVals ((List.take 5 (List.insertionSort wGE issuers)).foldl
          (fun f p => dinsert f p.1 (7/100)) [])
        ≤ (List.take 5 (List.insertionSort wGE issuers)).length * (7/100) :=
          sumVals_foldl_dinsert_le (by norm_num) _
      _ ≤ 5 * (7/100) := by
          apply mul_le_mul_of_nonneg_right _ (by norm_num)
          have := List.length_take_le 5 (List.insertionSort wGE issuers)
          exact_mod_cast this
      _ = 7/20 := by norm_num
  · simp only [if_neg hr]
    simp [sumVals]
    norm_num

/-- Core of the amended C1, quarterly variant. -/
theorem quarterlyRun_sum_one {issuers : Weights} (region : String)
    (hnd : keysNodup issuers) (hnn : ∀ p ∈ issuers, 0 ≤ p.2)
    (hsum : sumVals issuers = 1)
    {fuel : Nat} {t ff : Weights}
    (hrun : quarterlyRun (quarterlyInitFixed region issuers).1 fuel
      (quarterlyInitFixed region issuers).2 = some (t, ff))
    (hfree : freeTotalRaw (quarterlyInitFixed region issuers).1 ff ≠ 0) :
    sumVals t = 1 := by
  have hperm : List.Perm (List.insertionSort wGE issuers) issuers :=
    List.perm_insertionSort wGE issuers
  have hinit : (quarterlyInitFixed region issuers).1 = List.insertionSort wGE issuers := rfl
  have hndI : keysNodup (quarterlyInitFixed region issuers).1 := by
    rw [hinit]
    unfold keysNodup keysOf
    exact (hperm.map Prod.fst).nodup_iff.2 hnd
  have hnnI : ∀ p ∈ (quarterlyInitFixed region issuers).1, 0 ≤ p.2 := by
    intro p hp
    exact hnn p (hperm.subset (hinit ▸ hp))
  have hsumI : sumVals (quarterlyInitFixed region issuers).1 = 1 := by
    rw [hinit]
    unfold sumVals
    rw [(hperm.map Prod.snd).sum_eq]
    exact hsum
  obtain ⟨f, e, hPf, hdone⟩ := quarterlyRun_elim
    (QuarterlySumInv (quarterlyInitFixed region issuers).1)
    (fun f f2 hP hs => quarterlySumInv_cont hnnI hP hs)
    fuel _ t ff
    ⟨quarterlyInv_initFixed region issuers,
      le_trans (sumVals_quarterlyInitFixed_le region issuers) (by norm_num)⟩
    hrun
  obtain ⟨ht, hff, _⟩ := quarterlyStep_done_elim hdone
  subst hff
  rw [ht, sumVals_tentative_of_free hndI hPf.1.1 hPf.1.2 hfree,
    max_eq_right (by linarith [hPf.2])]
  ring

theorem paramsForRegion_exc (region : String) :
    (paramsForRegion region).2 = 7/100 ∨ (paramsForRegion region).2 = 9/100 := by
  unfold paramsForRegion
  by_cases h : upper (if region = "" then "CPH" else region) = "STO" <;> simp [h]

theorem mem_filterP {α : Type} {p : α → Prop} [DecidablePred p] {l : List α} {x : α} :
    x ∈ filterP p l ↔ x ∈ l ∧ p x := by
  induction l with
  | nil => simp [filterP]
  | cons y t ih =>
    by_cases hy : p y
    · rw [filterP, if_pos hy]
      constructor
      · intro hx
        rcases List.mem_cons.1 hx with hx | hx
        · exact ⟨by simp [hx], hx ▸ hy⟩
        · exact ⟨List.mem_cons_of_mem _ (ih.1 hx).1, (ih.1 hx).2⟩
      · intro ⟨hx, hpx⟩
        rcases List.mem_cons.1 hx with hx | hx
        · simp [hx]
        · exact List.mem_cons_of_mem _ (ih.2 ⟨hx, hpx⟩)
    · rw [filterP, if_neg hy]
      constructor
      · intro hx
        exact ⟨List.mem_cons_of_mem _ (ih.1 hx).1, (ih.1 hx).2⟩
      · intro ⟨hx, hpx⟩
        rcases List.mem_cons.1 hx with hx | hx
        · exact absurd (hx ▸ hpx) hy
        · exact ih.2 ⟨hx, hpx⟩


theorem filterP_congr {α : Type} {p q : α → Prop} [DecidablePred p] [DecidablePred q]
    {l : List α} (h : ∀ x ∈ l, p x ↔ q x) : filterP p l = filterP q l := by
  induction l with
  | nil => rfl
  | cons y t ih =>
    have hy := h y (by simp)
    by_cases hp : p y
    · rw [filterP, if_pos hp, filterP, if_pos (hy.1 hp),
        ih (fun x hx => h x (List.mem_cons_of_mem _ hx))]
    · rw [filterP, if_neg hp, filterP, if_neg (fun hq => hp (hy.2 hq)),
        ih (fun x hx => h x (List.mem_cons_of_mem _ hx))]

theorem filterP_filterP {α : Type} (p q : α → Prop) [DecidablePred p] [DecidablePred q]
    (l : List α) : filterP p (filterP q l) = filterP (fun x => p x ∧ q x) l := by
  induction l with
  | nil => rfl
  | cons y t ih =>
    by_cases hq : q y
    · by_cases hp : p y
      · rw [filterP, if_pos hq, filterP, if_pos hp, filterP, if_pos ⟨hp, hq⟩, ih]
      · rw [filterP, if_pos hq, filterP, if_neg hp, filterP,
          if_neg (fun hpq => hp hpq.1), ih]
    · rw [filterP, if_neg hq, filterP, if_neg (fun hpq => hq hpq.2), ih]

theorem sum_filterP_partition {α : Type} (p : α → Prop) [DecidablePred p] (f : α → ℚ)
    (l : List α) :
    ((filterP p l).map f).sum + ((filterP (fun x => ¬ p x) l).map f).sum
      = (l.map f).sum := by
  induction l with
  | nil => simp [filterP]
  | cons y t ih =>
    by_cases hp : p y
    · rw [filterP, if_pos hp, filterP, if_neg (fun hn => hn hp), List.map_cons,
        List.sum_cons, List.map_cons, List.sum_cons, add_assoc, ih]
    · rw [filterP, if_neg hp, filterP, if_pos hp, List.map_cons, List.sum_cons,
        List.map_cons, List.sum_cons, ← add_assoc, add_comm (((filterP p t).map f).sum),
        add_assoc, ih]

/-- The grouped sums of a pandas `groupby` add up to the whole column. -/
theorem sum_groupby {α : Type} (f : α → ℚ) (resolve : α → String) :
    ∀ keys : List String, keys.Nodup → ∀ rows : List α, (∀ r ∈ rows, resolve r ∈ keys) →
    (keys.map (fun k => ((filterP (fun r => resolve r = k) rows).map f).sum)).sum
      = (rows.map f).sum := by
  intro keys
  induction keys with
  | nil =>
    intro _ rows hcov
    have : rows = [] := by
      cases rows with
      | nil => rfl
      | cons r t => exact absurd (hcov r (by simp)) (by simp)
    subst this
    simp
  | cons k ks ih =>
    intro hnd rows hcov
    rw [List.nodup_cons] at hnd
    have hrest : ∀ k2 ∈ ks,
        ((filterP (fun r => resolve r = k2) rows).map f).sum
        = ((filterP (fun r => resolve r = k2)
            (filterP (fun r => ¬ resolve r = k) rows)).map f).sum := by
      intro k2 hk2
      rw [filterP_filterP]
      have : filterP (fun r => resolve r = k2) rows
          = filterP (fun x => resolve x = k2 ∧ ¬ resolve x = k) rows := by
        apply filterP_congr
        intro x _
        constructor
        · intro hx
          exact ⟨hx, fun hxk => hnd.1 (by rw [hxk.symm.trans hx]; exact hk2)⟩
        · intro hx
          exact hx.1
      rw [this]
    rw [List.map_cons, List.sum_cons, List.map_congr_left hrest,
      ih hnd.2 (filterP (fun r => ¬ resolve r = k) rows) (fun r hr => by
        have hm := mem_filterP.1 hr
        rcases List.mem_cons.1 (hcov r hm.1) with h1 | h1
        · exact absurd h1 hm.2
        · exact h1),
      sum_filterP_partition]

/-- The issuer table the aggregator hands the capping engines from rows
with nonnegative market caps and positive total: distinct issuers,
nonnegative initial weights summing to 1. -/
theorem issuersW_computeIssuerMcaps (hasIssuer : Bool) (rows : List NormRow)
    (hnn : ∀ r ∈ rows, 0 ≤ r.mcapUncapped)
    (hpos : 0 < (rows.map (fun r => r.mcapUncapped)).sum) :
    keysNodup (issuersW (computeIssuerMcaps hasIssuer rows))
    ∧ (∀ p ∈ issuersW (computeIssuerMcaps hasIssuer rows), 0 ≤ p.2)
    ∧ sumVals (issuersW (computeIssuerMcaps hasIssuer rows)) = 1 := by
  have hkeysnd : (groupKeys hasIssuer rows).Nodup :=
    (List.perm_insertionSort sLE _).nodup_iff.2 (List.nodup_dedup _)
  have hcov : ∀ r ∈ rows, resolveIssuer hasIssuer r ∈ groupKeys hasIssuer rows := by
    intro r hr
    unfold groupKeys
    rw [List.mem_insertionSort, List.mem_dedup]
    exact List.mem_map.2 ⟨r, hr, rfl⟩
  have hgnd : ((groupedMcaps hasIssuer rows).map Prod.fst).Nodup := by
    apply ((List.perm_insertionSort gGE _).map Prod.fst).nodup_iff.2
    rw [List.map_map]
    have : (Prod.fst ∘ fun k => ((k, (((filterP (fun r => resolveIssuer hasIssuer r = k)
        rows).map (fun r => r.mcapUncapped)).sum,
        ((filterP (fun r => resolveIssuer hasIssuer r = k) rows).map
          (fun r => r.mcapCapped)).sum)) : String × ℚ × ℚ)) = id := rfl
    rw [this, List.map_id]
    exact hkeysnd
  have hgmem : ∀ g ∈ groupedMcaps hasIssuer rows,
      g.2.1 = ((filterP (fun r => resolveIssuer hasIssuer r = g.1) rows).map
        (fun r => r.mcapUncapped)).sum := by
    intro g hg
    unfold groupedMcaps at hg
    obtain ⟨k, _, hke⟩ := List.mem_map.1 ((List.mem_insertionSort gGE).1 hg)
    rw [← hke]
  have htotU : ((groupedMcaps hasIssuer rows).map (fun g => g.2.1)).sum
      = (rows.map (fun r => r.mcapUncapped)).sum := by
    unfold groupedMcaps
    rw [((List.perm_insertionSort gGE _).map (fun g : String × ℚ × ℚ => g.2.1)).sum_eq,
      List.map_map]
    exact sum_groupby _ _ _ hkeysnd rows hcov
  have htotpos : 0 < ((groupedMcaps hasIssuer rows).map (fun g => g.2.1)).sum := by
    rw [htotU]
    exact hpos
  have hguard : (if ((groupedMcaps hasIssuer rows).map (fun g => g.2.1)).sum = 0 then 1
      else ((groupedMcaps hasIssuer rows).map (fun g => g.2.1)).sum)
      = ((groupedMcaps hasIssuer rows).map (fun g => g.2.1)).sum :=
    if_neg (ne_of_gt htotpos)
  have hiw : issuersW (computeIssuerMcaps hasIssuer rows)
      = (groupedMcaps hasIssuer rows).map (fun g =>
        (g.1, g.2.1 / ((groupedMcaps hasIssuer rows).map (fun g => g.2.1)).sum)) := by
    unfold issuersW computeIssuerMcaps
    rw [List.map_map]
    apply List.map_congr_left
    intro g _
    show (g.1, g.2.1 / _) = _
    rw [hguard]
  refine ⟨?_, ?_, ?_⟩
  · unfold keysNodup keysOf
    rw [hiw, List.map_map]
    have : (Prod.fst ∘ fun g : String × ℚ × ℚ =>
        (g.1, g.2.1 / ((groupedMcaps hasIssuer rows).map (fun g => g.2.1)).sum))
        = Prod.fst := rfl
    rw [this]
    exact hgnd
  · intro p hp
    rw [hiw] at hp
    obtain ⟨g, hg, hge⟩ := List.mem_map.1 hp
    have hp2 : p.2 = g.2.1 / ((groupedMcaps hasIssuer rows).map (fun g => g.2.1)).sum := by
      rw [← hge]
    rw [hp2, hgmem g hg]
    apply div_nonneg _ (le_of_lt htotpos)
    apply List.sum_nonneg
    intro y hy
    obtain ⟨r, hr, hre⟩ := List.mem_map.1 hy
    exact hre ▸ hnn r (mem_filterP.1 hr).1
  · rw [hiw]
    unfold sumVals
    rw [List.map_map]
    have hfn : ∀ g ∈ groupedMcaps hasIssuer rows,
        (Prod.snd ∘ fun g : String × ℚ × ℚ =>
          (g.1, g.2.1 / ((groupedMcaps hasIssuer rows).map (fun g => g.2.1)).sum)) g
        = g.2.1 * (((groupedMcaps hasIssuer rows).map (fun g => g.2.1)).sum)⁻¹ := by
      intro g _
      show g.2.1 / _ = _
      rw [div_eq_mul_inv]
    rw [List.map_congr_left hfn, List.sum_map_mul_right]
    exact mul_inv_cancel₀ (ne_of_gt htotpos)

/-- C1 (amended): with the initial weights the aggregator produces from a
positive total market cap (nonnegative, summing to 1, one row per issuer),
a finished run of either capping loop returns weights summing exactly to 1
PROVIDED the final pinned map leaves some issuer with nonzero free weight;
when every issuer ends pinned (e.g. a single-issuer table) the sum is the
sum of the pinned caps, which can be far below 1. -/
theorem C1_sum_to_one_if_free_issuer_remains (region : String) (issuers : Weights)
    (hnd : keysNodup issuers) (hnn : ∀ p ∈ issuers, 0 ≤ p.2)
    (hsum : sumVals issuers = 1) :
    (∀ (t ff : Weights) (e : Bool),
      dailyRun issuers (paramsForRegion region).1 (paramsForRegion region).2
        (issuers.length + 1) [] = some (t, ff, e) →
      freeTotalRaw issuers ff ≠ 0 → sumVals t = 1)
    ∧ (∀ t ff : Weights,
      quarterlyRun (quarterlyInitFixed region issuers).1 (issuers.length + 1)
        (quarterlyInitFixed region issuers).2 = some (t, ff) →
      freeTotalRaw (quarterlyInitFixed region issuers).1 ff ≠ 0 → sumVals t = 1) := by
  constructor
  · intro t ff e hrun hfree
    apply dailyRun_sum_one hnd hnn hsum _ _ hrun hfree
    · rw [paramsForRegion_cap]
      norm_num
    · rcases paramsForRegion_exc region with h | h <;> rw [h] <;> norm_num
  · intro t ff hrun hfree
    exact quarterlyRun_sum_one region hnd hnn hsum hrun hfree

theorem tentative_nonneg {init f1 : Weights} (hnn : ∀ p ∈ init, 0 ≤ p.2)
    (hvals : ∀ v ∈ f1.map Prod.snd, 0 ≤ v) :
    ∀ x ∈ tentative init f1, 0 ≤ x.2 := by
  intro x hx
  unfold tentative at hx
  obtain ⟨q, hq, he⟩ := List.mem_map.1 hx
  have hx2 : x.2 = (lookup f1 q.1).getD
      (q.2 / (if freeTotalRaw init f1 = 0 then 1 else freeTotalRaw init f1)
        * max 0 (1 - sumVals f1)) := by
    rw [← he]
  rw [hx2]
  cases hl : lookup f1 q.1 with
  | some v =>
    simp only [Option.getD]
    exact hvals v (List.mem_map.2 ⟨(q.1, v), lookup_mem hl, rfl⟩)
  | none =>
    simp only [Option.getD]
    have hq2 : 0 ≤ q.2 := hnn q hq
    have hden : 0 < (if freeTotalRaw init f1 = 0 then 1 else freeTotalRaw init f1) := by
      by_cases hz : freeTotalRaw init f1 = 0
      · rw [if_pos hz]
        norm_num
      · rw [if_neg hz]
        have : 0 ≤ freeTotalRaw init f1 := by
          unfold freeTotalRaw
          apply List.sum_nonneg
          intro y hy
          obtain ⟨r, hr, hre⟩ := List.mem_map.1 hy
          exact hre ▸ hnn r (mem_filterW.1 hr).1
        exact lt_of_le_of_ne this (Ne.symm hz)
    apply mul_nonneg (div_nonneg hq2 (le_of_lt hden)) (le_max_left _ _)

/-- C2 (amended): every weight returned by the daily loop is at most
`max(exception_cap, 0.40)`: pinned issuers carry one of the two caps, and
an unpinned issuer above 5% is bounded by the 40% aggregate on a normal
return and cannot exist on an escape-hatch return.  The claimed bound
`max(exception_cap, single_issuer_cap)` fails for unpinned issuers between
5% and 10% (see the counterexample). -/
theorem C2_daily_weights_le_max_exc_forty (region : String) (issuers : Weights)
    (hnn : ∀ p ∈ issuers, 0 ≤ p.2) (fuel : Nat) (t ff : Weights) (e : Bool)
    (hrun : dailyRun issuers (paramsForRegion region).1 (paramsForRegion region).2
      fuel [] = some (t, ff, e)) :
    ∀ x ∈ t, x.2 ≤ max (paramsForRegion region).2 (2/5) := by
  have hcap : (paramsForRegion region).1 ≤ 1/20 := by
    rw [paramsForRegion_cap]
    norm_num
  have hexc0 : (0:ℚ) ≤ (paramsForRegion region).2 := by
    rcases paramsForRegion_exc region with h | h <;> rw [h] <;> norm_num
  obtain ⟨f, hPf, hdone⟩ := dailyRun_elim (DailyInv issuers _ _)
    (fun f f2 hP hs => (dailyInv_cont hcap hP hs).1)
    fuel [] t ff e dailyInv_nil hrun
  obtain ⟨hff, ht, hnormal, hescape⟩ := dailyStep_done_elim hdone
  have hInv1 := dailyInv_pinBig hPf
  rw [← hff] at hInv1 ht hnormal hescape
  have hvals0 : ∀ v ∈ ff.map Prod.snd, 0 ≤ v := by
    intro v hv
    rcases hInv1.2.2 v hv with h | h
    · rw [h, paramsForRegion_cap]
      norm_num
    · rw [h]
      exact hexc0
  intro x hx
  rw [ht] at hx
  cases hl : lookup ff x.1 with
  | some v =>
    rw [tentative_pinned_val hx hl]
    rcases hInv1.2.2 v (List.mem_map.2 ⟨(x.1, v), lookup_mem hl, rfl⟩) with h | h
    · rw [h, paramsForRegion_cap]
      apply le_trans _ (le_max_right _ _)
      norm_num
    · rw [h]
      exact le_max_left _ _
  | none =>
    by_cases hgt : 1/20 < x.2
    · have hx5 : x ∈ filterW (fun p => 1/20 < p.2) (tentative issuers ff) :=
        mem_filterW.2 ⟨hx, hgt⟩
      cases e with
      | false =>
        have hagg := hnormal rfl
        have hle : x.2 ≤ ((filterW (fun p => 1/20 < p.2) (tentative issuers ff)).map
            Prod.snd).sum := by
          apply List.single_le_sum
          · intro y hy
            obtain ⟨r, hr, hre⟩ := List.mem_map.1 hy
            exact hre ▸ tentative_nonneg hnn hvals0 r (mem_filterW.1 hr).1
          · exact List.mem_map.2 ⟨x, hx5, rfl⟩
        exact le_trans hle (le_trans hagg (le_max_right _ _))
      | true =>
        exfalso
        have hnone := hescape rfl
        have hall := findFirst_eq_none.1 hnone
        have := hall x ((List.mem_insertionSort wLE).2 hx5)
        rw [hl] at this
        simp at this
    · push_neg at hgt
      apply le_trans hgt
      apply le_trans _ (le_max_right _ _)
      norm_num

/-- C1 (counterexample): on a single-issuer table with positive market cap
both capping variants return the weight map `{A: 0.07}`, whose sum 0.07 is
not within 1e-6 of 1.0. -/
theorem C1_counterexample_single_issuer :
    applyDailyCapping c1single (paramsForRegion "CPH").1 (paramsForRegion "CPH").2
      = some [("A", 7/100)]
    ∧ applyQuarterlyExceptions "CPH" c1single = some [("A", 7/100)]
    ∧ sumVals [("A", (7:ℚ)/100)] = 7/100
    ∧ ¬(|(7:ℚ)/100 - 1| ≤ 1/1000000) := by
  refine ⟨?_, ?_, by norm_num [sumVals], by rw [abs_sub_comm]; norm_num [abs_of_nonneg]⟩
  · norm_num +decide [c1single, applyDailyCapping, dailyRun, dailyStep, pinBig, tentative,
      freeTotalRaw, sumVals, lookup, dinsert, keysOf, filterW, findFirst,
      List.insertionSort, List.orderedInsert, wLE, paramsForRegion, upper,
      max_eq_right, max_eq_left]
  · norm_num +decide [c1single, applyQuarterlyExceptions, quarterlyInitFixed, quarterlyRun,
      quarterlyStep, tentative, freeTotalRaw, sumVals, lookup, dinsert, keysOf, filterW,
      findFirst, List.insertionSort, List.orderedInsert, wGE, upper,
      max_eq_right, max_eq_left]

/-- C1 (witness for the amended claim): on twenty issuers of 5% each both
variants finish with free issuers remaining and the returned weights sum
to 1. -/
theorem C1_witness_twenty_issuers :
    dailyRun c1free20 (paramsForRegion "CPH").1 (paramsForRegion "CPH").2
      (c1free20.length + 1) [] = some (c1free20, [], false)
    ∧ sumVals c1free20 = 1
    ∧ quarterlyRun (quarterlyInitFixed "CPH" c1free20).1 (c1free20.length + 1)
        (quarterlyInitFixed "CPH" c1free20).2 = some (c1quartT, c1quartF)
    ∧ sumVals c1quartT = 1 := by
  have hnd : keysNodup c1free20 := by unfold keysNodup; decide
  have hnn : ∀ p ∈ c1free20, 0 ≤ p.2 := by
    norm_num [c1free20, List.forall_mem_cons]
  have hsum : sumVals c1free20 = 1 := by norm_num [sumVals, c1free20]
  have hrun1 : dailyRun c1free20 (paramsForRegion "CPH").1 (paramsForRegion "CPH").2
      (c1free20.length + 1) [] = some (c1free20, [], false) := by
    norm_num +decide [c1free20, dailyRun, dailyStep, pinBig, tentative,
      freeTotalRaw, sumVals, lookup, dinsert, keysOf, filterW, findFirst,
      List.insertionSort, List.orderedInsert, wLE, paramsForRegion, upper,
      max_eq_right, max_eq_left]
  have hrun2 : quarterlyRun (quarterlyInitFixed "CPH" c1free20).1 (c1free20.length + 1)
      (quarterlyInitFixed "CPH" c1free20).2 = some (c1quartT, c1quartF) := by
    norm_num +decide [c1free20, c1quartT, c1quartF, quarterlyInitFixed, quarterlyRun,
      quarterlyStep, tentative, freeTotalRaw, sumVals, lookup, dinsert, keysOf, filterW,
      findFirst, List.insertionSort, List.orderedInsert, wGE, upper,
      max_eq_right, max_eq_left]
  have h := C1_sum_to_one_if_free_issuer_remains "CPH" c1free20 hnd hnn hsum
  refine ⟨hrun1, h.1 c1free20 [] false hrun1 ?_, hrun2, h.2 c1quartT c1quartF hrun2 ?_⟩
  · norm_num [freeTotalRaw, filterW, lookup, c1free20]
  · norm_num +decide [c1free20, c1quartF, quarterlyInitFixed, freeTotalRaw, filterW, lookup,
      keysOf, dinsert, List.insertionSort, List.orderedInsert, wGE, upper]

/-- C2 (counterexample): the daily loop returns through the normal branch
(the 40% rule is satisfied, no escape hatch), yet issuer A keeps a weight
of 10%, above `max(exception_cap, single_issuer_cap) = 7%`: the daily
variant never applies the 4.5%/7% structure to unpinned issuers. -/
theorem C2_counterexample_ten_percent_free :
    dailyRun c2table (paramsForRegion "CPH").1 (paramsForRegion "CPH").2
      (c2table.length + 1) [] = some (c2table, [], false)
    ∧ ("A", (1:ℚ)/10) ∈ c2table
    ∧ ¬((1:ℚ)/10 ≤ max (paramsForRegion "CPH").2 (paramsForRegion "CPH").1) := by
  refine ⟨?_, by unfold c2table; exact List.mem_cons_self _ _, ?_⟩
  · norm_num +decide [c2table, dailyRun, dailyStep, pinBig, tentative,
      freeTotalRaw, sumVals, lookup, dinsert, keysOf, filterW, findFirst,
      List.insertionSort, List.orderedInsert, wLE, paramsForRegion, upper,
      max_eq_right, max_eq_left]
  · norm_num +decide [paramsForRegion, upper, max_eq_left]

/-- C2 (witness for the amended claim): the amended bound applied to the
same run. -/
theorem C2_witness_bound_holds :
    (1:ℚ)/10 ≤ max (paramsForRegion "CPH").2 (2/5) := by
  have hnn : ∀ p ∈ c2table, 0 ≤ p.2 := by
    norm_num [c2table, List.forall_mem_cons]
  have hrun : dailyRun c2table (paramsForRegion "CPH").1 (paramsForRegion "CPH").2
      (c2table.length + 1) [] = some (c2table, [], false) := by
    norm_num +decide [c2table, dailyRun, dailyStep, pinBig, tentative,
      freeTotalRaw, sumVals, lookup, dinsert, keysOf, filterW, findFirst,
      List.insertionSort, List.orderedInsert, wLE, paramsForRegion, upper,
      max_eq_right, max_eq_left]
  exact C2_daily_weights_le_max_exc_forty "CPH" c2table hnn _ _ _ _ hrun
    ("A", (1:ℚ)/10) (by unfold c2table; exact List.mem_cons_self _ _)

/-- C9 (counterexample): on `{A: 0.50, B: 0.30, C: 0.20}` the daily CPH
engine pins ALL three issuers to 7% in its first pass (B and C also
exceed 10%, not only A); B is never pinned to 0.045, and the weights sum
to 0.21, not 1.0. -/
theorem C9_counterexample_all_pinned :
    applyDailyCapping c9table (paramsForRegion "CPH").1 (paramsForRegion "CPH").2
      = some [("A", 7/100), ("B", 7/100), ("C", 7/100)]
    ∧ lookup [("A", (7:ℚ)/100), ("B", 7/100), ("C", 7/100)] "B" = some (7/100)
    ∧ ¬((7:ℚ)/100 = 9/200)
    ∧ sumVals [("A", (7:ℚ)/100), ("B", 7/100), ("C", 7/100)] = 21/100
    ∧ ¬((21:ℚ)/100 = 1) := by
  refine ⟨?_, by norm_num [lookup], by norm_num, by norm_num [sumVals], by norm_num⟩
  norm_num +decide [c9table, applyDailyCapping, dailyRun, dailyStep, pinBig, tentative,
    freeTotalRaw, sumVals, lookup, dinsert, keysOf, filterW, findFirst,
    List.insertionSort, List.orderedInsert, wLE, paramsForRegion, upper,
    max_eq_right, max_eq_left]

/-- C9 (amended): on this input every issuer exceeds the 10% threshold, so
the first pass pins all three to the exception cap 7%; the over-5%
aggregate of the result is 0.21 ≤ 40%, the run returns through the normal
branch with no 0.045 pin, and the weights sum to 0.21. -/
theorem C9_amended_all_pinned_to_exception_cap :
    (∀ p ∈ c9table, 1/10 < p.2)
    ∧ dailyRun c9table (paramsForRegion "CPH").1 (paramsForRegion "CPH").2
        (c9table.length + 1) []
      = some ([("A", 7/100), ("B", 7/100), ("C", 7/100)],
          [("A", 7/100), ("B", 7/100), ("C", 7/100)], false)
    ∧ ((filterW (fun p => 1/20 < p.2)
        [("A", (7:ℚ)/100), ("B", 7/100), ("C", 7/100)]).map Prod.snd).sum = 21/100
    ∧ sumVals [("A", (7:ℚ)/100), ("B", 7/100), ("C", 7/100)] = 21/100 := by
  refine ⟨?_, ?_, by norm_num [filterW, List.map], by norm_num [sumVals]⟩
  · norm_num [c9table, List.forall_mem_cons]
  · norm_num +decide [c9table, dailyRun, dailyStep, pinBig, tentative,
      freeTotalRaw, sumVals, lookup, dinsert, keysOf, filterW, findFirst,
      List.insertionSort, List.orderedInsert, wLE, paramsForRegion, upper,
      max_eq_right, max_eq_left]

theorem foldl_dinsert_eq_append {l : Weights} (v : ℚ) :
    ∀ {acc : Weights}, (∀ p ∈ l, p.1 ∉ keysOf acc) → keysNodup l →
    l.foldl (fun f p => dinsert f p.1 v) acc = acc ++ l.map (fun p => (p.1, v)) := by
  induction l with
  | nil => intro acc _ _; simp
  | cons p t ih =>
    intro acc hfresh hnd
    rw [List.foldl_cons, dinsert_of_not_mem v (hfresh p (by simp))]
    have hnd2 : keysNodup t := by
      unfold keysNodup at hnd ⊢
      rw [keysOf_cons, List.nodup_cons] at hnd
      exact hnd.2
    have hfresh2 : ∀ q ∈ t, q.1 ∉ keysOf (acc ++ [(p.1, v)]) := by
      intro q hq hmem
      rw [keysOf_append] at hmem
      rcases List.mem_append.1 hmem with h1 | h1
      · exact hfresh q (List.mem_cons_of_mem _ hq) h1
      · unfold keysNodup at hnd
        rw [keysOf_cons, List.nodup_cons] at hnd
        have : q.1 = p.1 := by simpa [keysOf] using h1
        exact hnd.1 (this ▸ List.mem_map.2 ⟨q, hq, rfl⟩)
    rw [ih hfresh2 hnd2, List.append_assoc]
    rfl

/-- C4: the quarterly engine (a) pins the leading five issuers of the
descending sort to 7% for CPH and HEL and pins nobody for STO; (b) every
non-returning pass pins, at 0.045, an unpinned issuer of largest tentative
weight among those exceeding 0.045; (c) it returns the tentative vector
once no unpinned issuer exceeds 0.045; and (d) the top-slot pins retain
exactly the 7% exception cap in the returned map. -/
theorem C4_quarterly_top_slots_and_largest_first (region : String) (issuers : Weights)
    (hnd : keysNodup issuers) :
    ((upper region = "CPH" ∨ upper region = "HEL") →
      (quarterlyInitFixed region issuers).2
        = ((List.insertionSort wGE issuers).take 5).map (fun p => (p.1, (7:ℚ)/100)))
    ∧ (upper region = "STO" → (quarterlyInitFixed region issuers).2 = [])
    ∧ (∀ fixed f2 : Weights,
        quarterlyStep (quarterlyInitFixed region issuers).1 fixed = .cont f2 →
        ∃ q : String × ℚ, f2 = dinsert fixed q.1 (9/200)
          ∧ lookup fixed q.1 = none ∧ 9/200 < q.2
          ∧ q ∈ tentative (quarterlyInitFixed region issuers).1 fixed
          ∧ ∀ b ∈ tentative (quarterlyInitFixed region issuers).1 fixed,
              lookup fixed b.1 = none → 9/200 < b.2 → b.2 ≤ q.2)
    ∧ (∀ (fixed t ff : Weights) (e : Bool),
        quarterlyStep (quarterlyInitFixed region issuers).1 fixed = .done t ff e →
        t = tentative (quarterlyInitFixed region issuers).1 fixed ∧
        ∀ b ∈ t, lookup fixed b.1 = none → b.2 ≤ 9/200)
    ∧ (∀ (fuel : Nat) (t ff : Weights),
        quarterlyRun (quarterlyInitFixed region issuers).1 fuel
          (quarterlyInitFixed region issuers).2 = some (t, ff) →
        ∀ (k : String) (v : ℚ), lookup (quarterlyInitFixed region issuers).2 k = some v →
          k ∈ keysOf (quarterlyInitFixed region issuers).1 → (k, v) ∈ t) := by
  refine ⟨?_, ?_, ?_, ?_, ?_⟩
  · intro hr
    unfold quarterlyInitFixed
    simp only [if_pos hr]
    apply foldl_dinsert_eq_append
    · intro p _ hmem
      simp [keysOf] at hmem
    · unfold keysNodup keysOf
      have hsub : List.Sublist
          ((List.take 5 (List.insertionSort wGE issuers)).map Prod.fst)
          ((List.insertionSort wGE issuers).map Prod.fst) :=
        (List.take_sublist _ _).map Prod.fst
      apply List.Nodup.sublist hsub
      unfold keysNodup keysOf at hnd
      exact ((List.perm_insertionSort wGE issuers).map Prod.fst).nodup_iff.2 hnd
  · intro hr
    unfold quarterlyInitFixed
    rw [hr]
    have hcond : ¬("STO" = "CPH" ∨ "STO" = "HEL") := by decide
    simp [hcond]
  · intro fixed f2 hs
    obtain ⟨q, hf2, hq, hqmax⟩ := quarterlyStep_cont_elim hs
    obtain ⟨hqt, hqfree, hqgt⟩ := mem_filterW.1 hq
    exact ⟨q, hf2, hqfree, hqgt, hqt,
      fun b hb hbfree hbgt => hqmax b (mem_filterW.2 ⟨hb, hbfree, hbgt⟩)⟩
  · intro fixed t ff e hs
    obtain ⟨ht, hff, hnil⟩ := quarterlyStep_done_elim hs
    refine ⟨ht, ?_⟩
    intro b hb hbfree
    by_contra hgt
    push_neg at hgt
    have : b ∈ filterW
        (fun p => lookup fixed p.1 = none ∧ 9/200 < p.2)
        (tentative (quarterlyInitFixed region issuers).1 fixed) :=
      mem_filterW.2 ⟨ht ▸ hb, hbfree, hgt⟩
    rw [hnil] at this
    simp at this
  · intro fuel t ff hrun k v hk hkinit
    have helim := quarterlyRun_elim
      (fun f => ∀ (k2 : String) (v2 : ℚ),
        lookup (quarterlyInitFixed region issuers).2 k2 = some v2 → lookup f k2 = some v2)
      ?hstep fuel _ t ff (fun k2 v2 h => h) hrun
    case hstep =>
      intro f f2 hP hs
      obtain ⟨q, hf2, hq, _⟩ := quarterlyStep_cont_elim hs
      obtain ⟨_, hqfree, _⟩ := mem_filterW.1 hq
      intro k2 v2 h2
      have hlk : lookup f k2 = some v2 := hP k2 v2 h2
      have hne : k2 ≠ q.1 := by
        intro hh
        rw [hh, hqfree] at hlk
        exact absurd hlk (by simp)
      rw [hf2, lookup_dinsert_ne _ hne]
      exact hlk
    obtain ⟨f, e, hPf, hdone⟩ := helim
    obtain ⟨ht, hff, _⟩ := quarterlyStep_done_elim hdone
    have hlk : lookup f k = some v := hPf k v hk
    obtain ⟨p, hp, hpk⟩ := List.mem_map.1 hkinit
    rw [ht]
    unfold tentative
    apply List.mem_map.2
    refine ⟨p, hp, ?_⟩
    rw [hpk, hlk]
    rfl

/-- C4 (witness): the top-slot pinning applied to a concrete six-issuer
table for CPH and STO. -/
theorem C4_witness_top_slots :
    (quarterlyInitFixed "CPH" c4tbl).2
      = ((List.insertionSort wGE c4tbl).take 5).map (fun p => (p.1, (7:ℚ)/100))
    ∧ (quarterlyInitFixed "STO" c4tbl).2 = [] :=
  ⟨(C4_quarterly_top_slots_and_largest_first "CPH" c4tbl
      (by unfold keysNodup; decide)).1 (by left; decide),
   (C4_quarterly_top_slots_and_largest_first "STO" c4tbl
      (by unfold keysNodup; decide)).2.1 (by decide)⟩

/-! Generic lemmas about `filterP` and `findP`, and the claims about the
pipeline. -/
theorem filterP_map {α β : Type} (p : β → Prop) [DecidablePred p] (f : α → β)
    (l : List α) : filterP p (l.map f) = (filterP (fun x => p (f x)) l).map f := by
  induction l with
  | nil => rfl
  | cons x t ih =>
    by_cases h : p (f x)
    · rw [List.map_cons, filterP, if_pos h, filterP, if_pos h, List.map_cons, ih]
    · rw [List.map_cons, filterP, if_neg h, filterP, if_neg h, ih]

/-- C8: for every issuer whose total market cap on a basis is positive,
the distributed per-row final weights of that issuer sum exactly to the
issuer's final target weight, on the uncapped basis (`weight`) and the
capped basis (`capped_weight`) alike. -/
theorem C8_distributor_preserves_issuer_weight (hasIssuer : Bool) (rows : List NormRow)
    (finalW : Weights) (I : String) :
    (0 < ((filterP (fun r => resolveIssuer hasIssuer r = I) rows).map
        (fun r => r.mcapUncapped)).sum →
      ((filterP (fun o => o.issuer = I) (distributeToConstituents hasIssuer rows finalW)).map
        (fun o => o.weight)).sum = (lookup finalW I).getD 0)
    ∧ (0 < ((filterP (fun r => resolveIssuer hasIssuer r = I) rows).map
        (fun r => r.mcapCapped)).sum →
      ((filterP (fun o => o.issuer = I) (distributeToConstituents hasIssuer rows finalW)).map
        (fun o => o.cappedWeight)).sum = (lookup finalW I).getD 0) := by
  constructor
  · intro hT
    rw [distributeToConstituents, filterP_map, List.map_map]
    have hfil : filterP (fun x => (distRow hasIssuer rows finalW x).issuer = I) rows
        = filterP (fun r => resolveIssuer hasIssuer r = I) rows := rfl
    rw [hfil]
    have hmap : ∀ r ∈ filterP (fun r => resolveIssuer hasIssuer r = I) rows,
        ((fun o => o.weight) ∘ distRow hasIssuer rows finalW) r
        = r.mcapUncapped * ((lookup finalW I).getD 0
            / ((filterP (fun r2 => resolveIssuer hasIssuer r2 = I) rows).map
              (fun r2 => r2.mcapUncapped)).sum) := by
      intro r hr
      have hrI : resolveIssuer hasIssuer r = I := (mem_filterP.1 hr).2
      show (lookup finalW (resolveIssuer hasIssuer r)).getD 0 *
        (if ((filterP (fun r2 => resolveIssuer hasIssuer r2
            = resolveIssuer hasIssuer r) rows).map (fun r2 => r2.mcapUncapped)).sum = 0
          then 0
          else r.mcapUncapped / ((filterP (fun r2 => resolveIssuer hasIssuer r2
            = resolveIssuer hasIssuer r) rows).map (fun r2 => r2.mcapUncapped)).sum) = _
      rw [hrI, if_neg (ne_of_gt hT)]
      field_simp
      ring
    rw [List.map_congr_left hmap, List.sum_map_mul_right]
    have hTne := ne_of_gt hT
    field_simp
  · intro hT
    rw [distributeToConstituents, filterP_map, List.map_map]
    have hfil : filterP (fun x => (distRow hasIssuer rows finalW x).issuer = I) rows
        = filterP (fun r => resolveIssuer hasIssuer r = I) rows := rfl
    rw [hfil]
    have hmap : ∀ r ∈ filterP (fun r => resolveIssuer hasIssuer r = I) rows,
        ((fun o => o.cappedWeight) ∘ distRow hasIssuer rows finalW) r
        = r.mcapCapped * ((lookup finalW I).getD 0
            / ((filterP (fun r2 => resolveIssuer hasIssuer r2 = I) rows).map
              (fun r2 => r2.mcapCapped)).sum) := by
      intro r hr
      have hrI : resolveIssuer hasIssuer r = I := (mem_filterP.1 hr).2
      show (lookup finalW (resolveIssuer hasIssuer r)).getD 0 *
        (if ((filterP (fun r2 => resolveIssuer hasIssuer r2
            = resolveIssuer hasIssuer r) rows).map (fun r2 => r2.mcapCapped)).sum = 0
          then 0
          else r.mcapCapped / ((filterP (fun r2 => resolveIssuer hasIssuer r2
            = resolveIssuer hasIssuer r) rows).map (fun r2 => r2.mcapCapped)).sum) = _
      rw [hrI, if_neg (ne_of_gt hT)]
      field_simp
      ring
    rw [List.map_congr_left hmap, List.sum_map_mul_right]
    have hTne := ne_of_gt hT
    field_simp

/-- C8 (witness): a two-constituent issuer with target weight 1/2 gets
per-row weights summing to 1/2 on both bases. -/
theorem C8_witness_two_constituents :
    ((filterP (fun o => o.issuer = "I")
      (distributeToConstituents true [c8r1, c8r2] [("I", 1/2)])).map
        (fun o => o.weight)).sum = (lookup [("I", (1:ℚ)/2)] "I").getD 0
    ∧ ((filterP (fun o => o.issuer = "I")
      (distributeToConstituents true [c8r1, c8r2] [("I", 1/2)])).map
        (fun o => o.cappedWeight)).sum = (lookup [("I", (1:ℚ)/2)] "I").getD 0 :=
  ⟨(C8_distributor_preserves_issuer_weight true [c8r1, c8r2] [("I", 1/2)] "I").1
    (by norm_num [filterP, resolveIssuer, c8r1, c8r2]),
   (C8_distributor_preserves_issuer_weight true [c8r1, c8r2] [("I", 1/2)] "I").2
    (by norm_num [filterP, resolveIssuer, c8r1, c8r2])⟩

/-- C6 (amended): in `build_status`, `delta_pct` is the proposed
`capped_weight` minus the current capped weight (vendor field / 100 when
present, else capped-market-cap share); in `build_quarterly_proforma`,
`delta_pct` is the uncapped-basis target `weight` minus the current capped
weight, whose missing-vendor-field fallback is the UNCAPPED current
weight, not the capped share. -/
theorem C6_amended_delta_formulas (t : RawTable) (region : String) (q : Bool) (aum : ℚ) :
    (∀ (d : List NormRow) (out : List StatusRow), normalizeInput t = .ok d →
      buildStatusUnrounded t region q = .ok out → ∀ o ∈ out,
      o.deltaPct = o.cappedWeight - o.currWeightCapped
      ∧ o.currWeightCapped = ((findP (fun r2 => r2.ticker = o.ticker) d).map
          (statusCurrW t d)).getD 0)
    ∧ (∀ (d : List NormRow) (out : List ProformaRow), normalizeInput t = .ok d →
      buildQuarterlyProformaUnrounded t region aum = .ok out → ∀ o ∈ out,
      o.deltaPct = o.weight - o.currWCapped
      ∧ o.currWCapped = ((findP (fun r2 => r2.ticker = o.ticker) d).map
          (proformaCurrWC t d)).getD 0) := by
  constructor
  · intro d out hd hout o ho
    unfold buildStatusUnrounded at hout
    rw [hd] at hout
    dsimp only at hout
    cases hc : (if q then applyQuarterlyExceptions (upper (if region = "" then "CPH" else region))
        (issuersW (computeIssuerMcaps t.hasIssuer d))
      else applyDailyCapping (issuersW (computeIssuerMcaps t.hasIssuer d))
        (paramsForRegion region).1 (paramsForRegion region).2) with
    | none =>
      rw [hc] at hout
      exact absurd hout (by simp)
    | some finalW =>
      rw [hc] at hout
      injection hout with hout
      subst hout
      obtain ⟨o2, _, ho2⟩ := List.mem_map.1 ho
      subst ho2
      exact ⟨rfl, rfl⟩
  · intro d out hd hout o ho
    unfold buildQuarterlyProformaUnrounded at hout
    rw [hd] at hout
    dsimp only at hout
    cases hc : applyQuarterlyExceptions (upper (if region = "" then "CPH" else region))
        (issuersW (computeIssuerMcaps t.hasIssuer d)) with
    | none =>
      rw [hc] at hout
      exact absurd hout (by simp)
    | some finalW =>
      rw [hc] at hout
      injection hout with hout
      subst hout
      obtain ⟨o2, _, ho2⟩ := List.mem_map.1 ho
      subst ho2
      exact ⟨rfl, rfl⟩

/-- C6 (counterexample): on `c6tbl` the proforma `delta_pct` is -0.43 for
both rows, while "proposed capped_weight minus capped-market-cap-share
current weight" would be -29/300 and -229/300: the proforma delta uses
the uncapped-basis target `weight` and an uncapped-derived current
weight, contradicting the claim. -/
theorem C6_counterexample_proforma_delta :
    isOkE (buildQuarterlyProformaUnrounded c6tbl "CPH" 0) = true
    ∧ ((exList (buildQuarterlyProformaUnrounded c6tbl "CPH" 0)).map (fun o => o.deltaPct))
        = [-43/100, -43/100]
    ∧ ((exList (normalizeInput c6tbl)).map (fun r => r.mcapCapped)).sum = 12
    ∧ ((exList (buildQuarterlyProformaUnrounded c6tbl "CPH" 0)).map
        (fun o => o.cappedWeight - o.mcapCapped / 12)) = [-29/300, -229/300]
    ∧ ¬((-43:ℚ)/100 = -29/300) := by
  refine ⟨?_, ?_, ?_, ?_, by norm_num⟩ <;>
    norm_num +decide [c6tbl, normalizeInput, normalizeRowPass1, computeIssuerMcaps,
      groupKeys, groupedMcaps, filterP,
      issuersW, resolveIssuer, sLE, gGE, applyQuarterlyExceptions, quarterlyInitFixed,
      quarterlyRun, quarterlyStep, tentative, freeTotalRaw, sumVals, lookup, dinsert,
      keysOf, filterW, filterP, findP, List.insertionSort, List.orderedInsert, wGE, upper,
      distributeToConstituents, distRow, proformaRowOf, proformaCurrWU, proformaCurrWC,
      buildQuarterlyProformaUnrounded, isOkE, exList, List.dedup_nil, List.dedup_cons_of_mem,
      List.dedup_cons_of_not_mem, max_eq_right, max_eq_left]

/-- C6 (witness for the amended claim): the delta equations hold on the
concrete `c6tbl` outputs. -/
theorem C6_witness_delta_formulas :
    buildStatusUnrounded c6tbl "CPH" false = .ok [c6statusX, c6statusY]
    ∧ c6statusX.deltaPct = c6statusX.cappedWeight - c6statusX.currWeightCapped := by
  have hd : normalizeInput c6tbl = .ok (exList (normalizeInput c6tbl)) := by
    norm_num [c6tbl, normalizeInput, normalizeRowPass1, exList]
  have h1 : buildStatusUnrounded c6tbl "CPH" false = .ok [c6statusX, c6statusY] := by
    norm_num +decide [c6tbl, normalizeInput, normalizeRowPass1, computeIssuerMcaps,
      groupKeys, groupedMcaps, filterP,
      issuersW, resolveIssuer, sLE, gGE, applyDailyCapping, dailyRun, dailyStep, pinBig,
      tentative, freeTotalRaw, sumVals, lookup, dinsert, keysOf, filterW, filterP, findP,
      findFirst, List.insertionSort, List.orderedInsert, wLE, wGE, upper, paramsForRegion,
      distributeToConstituents, distRow, statusRowOf, statusCurrW, buildStatusUnrounded,
      c6statusX, c6statusY, List.dedup_nil, List.dedup_cons_of_mem,
      List.dedup_cons_of_not_mem, max_eq_right, max_eq_left]
  exact ⟨h1, ((C6_amended_delta_formulas c6tbl "CPH" false 0).1 _ _ hd h1 c6statusX
    (List.mem_cons_self _ _)).1⟩

/-- C7 (counterexample): a table without a `price` column makes both
normalizers (and hence the builders) fail with a KeyError rather than
coerce the field to 0: `d["price"]` is a direct subscript. -/
theorem C7_counterexample_missing_price_column :
    c7tbl.hasPrice = false
    ∧ isOkE (normalizeInput c7tbl) = false
    ∧ isOkE (kaxcapNormalizeInput c7tbl) = false
    ∧ isOkE (buildStatus c7tbl "CPH" false) = false
    ∧ isOkE (buildQuarterlyProforma c7tbl "CPH" 0) = false := by
  refine ⟨rfl, ?_, ?_, ?_, ?_⟩ <;> rfl

/-- C7 (amended): once the mandatory `ticker`, `price` and `shares`
columns exist, both normalizers and both builders return normally on any
rows, and every missing or unparseable numeric cell is coerced to 0. -/
theorem C7_amended_mandatory_columns_then_total (t : RawTable)
    (h1 : t.hasTicker = true) (h2 : t.hasPrice = true) (h3 : t.hasShares = true)
    (region : String) (q : Bool) (aum : ℚ) :
    isOkE (normalizeInput t) = true
    ∧ isOkE (kaxcapNormalizeInput t) = true
    ∧ isOkE (buildStatus t region q) = true
    ∧ isOkE (buildQuarterlyProforma t region aum) = true
    ∧ ∀ r ∈ t.rows,
        (r.price = none → (normalizeRowPass1 t r).price = 0)
        ∧ (r.shares = none → (normalizeRowPass1 t r).shares = 0)
        ∧ (r.sharesCapped = none → (normalizeRowPass1 t r).sharesCapped = 0)
        ∧ (r.volMillions = none → r.vol30d = none → r.vol30dAlt = none →
            (normalizeRowPass1 t r).volMillions = 0) := by
  have hno : ∃ d, normalizeInput t = .ok d := by
    unfold normalizeInput
    rw [if_neg (by simp [h1]), if_neg (by simp [h2]), if_neg (by simp [h3])]
    exact ⟨_, rfl⟩
  obtain ⟨d, hd⟩ := hno
  refine ⟨by rw [hd]; rfl, ?_, ?_, ?_, ?_⟩
  · unfold kaxcapNormalizeInput
    rw [if_neg (by simp [h1]), if_neg (by simp [h2]), if_neg (by simp [h3])]
    rfl
  · unfold buildStatus buildStatusUnrounded
    rw [hd]
    dsimp only
    have hsome : (if q = true then applyQuarterlyExceptions
          (upper (if region = "" then "CPH" else region))
          (issuersW (computeIssuerMcaps t.hasIssuer d))
        else applyDailyCapping (issuersW (computeIssuerMcaps t.hasIssuer d))
          (paramsForRegion region).1 (paramsForRegion region).2).isSome = true := by
      cases q
      · rw [if_neg (by simp)]
        exact applyDailyCapping_isSome _ _ (by rw [paramsForRegion_cap]; norm_num)
      · rw [if_pos rfl]
        exact applyQuarterlyExceptions_isSome _ _
    obtain ⟨w, hw⟩ := Option.isSome_iff_exists.1 hsome
    rw [hw]
    rfl
  · unfold buildQuarterlyProforma buildQuarterlyProformaUnrounded
    rw [hd]
    dsimp only
    obtain ⟨w, hw⟩ := Option.isSome_iff_exists.1
      (applyQuarterlyExceptions_isSome (upper (if region = "" then "CPH" else region))
        (issuersW (computeIssuerMcaps t.hasIssuer d)))
    rw [hw]
    rfl
  · intro r _
    refine ⟨fun hp => by simp [normalizeRowPass1, hp], fun hs => by simp [normalizeRowPass1, hs],
      fun hsc => by simp [normalizeRowPass1, hsc], fun hm hv ha => ?_⟩
    simp [normalizeRowPass1, hm, hv, ha]

/-- C7 (witness): the amended claim applied to `c7ok`. -/
theorem C7_witness_normalizes_missing_price_value :
    isOkE (normalizeInput c7ok) = true
    ∧ isOkE (buildStatus c7ok "CPH" false) = true
    ∧ (normalizeRowPass1 c7ok c7okRow).price = 0 :=
  ⟨(C7_amended_mandatory_columns_then_total c7ok rfl rfl rfl "CPH" false 0).1,
   (C7_amended_mandatory_columns_then_total c7ok rfl rfl rfl "CPH" false 0).2.2.1,
   ((C7_amended_mandatory_columns_then_total c7ok rfl rfl rfl "CPH" false 0).2.2.2.2
     c7okRow (List.mem_cons_self _ _)).1 rfl⟩

theorem roundTo_den (n : ℕ) (q : ℚ) : (roundTo n q * 10 ^ n).den = 1 := by
  unfold roundTo
  rw [div_mul_cancel₀ _ (by positivity : ((10:ℚ) ^ n) ≠ 0)]
  exact Rat.den_intCast _

/-- C10: every row of the rounded `build_status` output carries weights
with at most 4 decimals and prices/shares/volumes with at most 2; every
row of the rounded proforma additionally carries `delta_pct` and both
current-weight columns at 4 decimals and `delta_ccy`, `delta_vol`,
`days_to_cover` at 2. -/
theorem C10_outputs_rounded_to_fixed_decimals (t : RawTable) (region : String)
    (q : Bool) (aum : ℚ) :
    (∀ out, buildStatus t region q = .ok out → ∀ o ∈ out,
      (o.weight * 10 ^ 4).den = 1 ∧ (o.cappedWeight * 10 ^ 4).den = 1
      ∧ (o.price * 10 ^ 2).den = 1 ∧ (o.shares * 10 ^ 2).den = 1
      ∧ (o.sharesCapped * 10 ^ 2).den = 1 ∧ (o.avgVol30d * 10 ^ 2).den = 1)
    ∧ (∀ out, buildQuarterlyProforma t region aum = .ok out → ∀ o ∈ out,
      (o.weight * 10 ^ 4).den = 1 ∧ (o.cappedWeight * 10 ^ 4).den = 1
      ∧ (o.deltaPct * 10 ^ 4).den = 1 ∧ (o.currWUncapped * 10 ^ 4).den = 1
      ∧ (o.currWCapped * 10 ^ 4).den = 1
      ∧ (o.price * 10 ^ 2).den = 1 ∧ (o.shares * 10 ^ 2).den = 1
      ∧ (o.sharesCapped * 10 ^ 2).den = 1 ∧ (o.deltaCcy * 10 ^ 2).den = 1
      ∧ (o.deltaVol * 10 ^ 2).den = 1 ∧ (o.daysToCover * 10 ^ 2).den = 1
      ∧ (o.avgVol30d * 10 ^ 2).den = 1) := by
  constructor
  · intro out hout o ho
    unfold buildStatus at hout
    cases hu : buildStatusUnrounded t region q with
    | error e =>
      rw [hu] at hout
      exact absurd hout (by simp [Except.map])
    | ok l =>
      rw [hu] at hout
      simp only [Except.map] at hout
      injection hout with hout
      subst hout
      obtain ⟨o2, _, ho2⟩ := List.mem_map.1 ho
      subst ho2
      exact ⟨roundTo_den 4 _, roundTo_den 4 _, roundTo_den 2 _, roundTo_den 2 _,
        roundTo_den 2 _, roundTo_den 2 _⟩
  · intro out hout o ho
    unfold buildQuarterlyProforma at hout
    cases hu : buildQuarterlyProformaUnrounded t region aum with
    | error e =>
      rw [hu] at hout
      exact absurd hout (by simp [Except.map])
    | ok l =>
      rw [hu] at hout
      simp only [Except.map] at hout
      injection hout with hout
      subst hout
      have ho3 : o ∈ l.map roundProformaRow := (List.mem_insertionSort prGE).1 ho
      obtain ⟨o2, _, ho2⟩ := List.mem_map.1 ho3
      subst ho2
      exact ⟨roundTo_den 4 _, roundTo_den 4 _, roundTo_den 4 _, roundTo_den 4 _,
        roundTo_den 4 _, roundTo_den 2 _, roundTo_den 2 _, roundTo_den 2 _,
        roundTo_den 2 _, roundTo_den 2 _, roundTo_den 2 _, roundTo_den 2 _⟩

/-- C10 (witness): the rounded outputs on `c6tbl` and the precision bound
on the X rows. -/
theorem C10_witness_concrete_outputs :
    buildStatus c6tbl "CPH" false = .ok [c6statusX, c6statusY]
    ∧ (c6statusX.weight * 10 ^ 4).den = 1
    ∧ buildQuarterlyProforma c6tbl "CPH" 0 = .ok [c6profX, c6profY]
    ∧ (c6profX.deltaPct * 10 ^ 4).den = 1 := by
  have h1 : buildStatus c6tbl "CPH" false = .ok [c6statusX, c6statusY] := by
    norm_num +decide [c6tbl, normalizeInput, normalizeRowPass1, computeIssuerMcaps,
      groupKeys, groupedMcaps, filterP,
      issuersW, resolveIssuer, sLE, gGE, applyDailyCapping, dailyRun, dailyStep, pinBig,
      tentative, freeTotalRaw, sumVals, lookup, dinsert, keysOf, filterW, filterP, findP,
      findFirst, List.insertionSort, List.orderedInsert, wLE, wGE, upper, paramsForRegion,
      distributeToConstituents, distRow, statusRowOf, statusCurrW, buildStatus,
      buildStatusUnrounded, roundStatusRow, roundTo, roundHalfEven, Except.map,
      c6statusX, c6statusY, List.dedup_nil, List.dedup_cons_of_mem,
      List.dedup_cons_of_not_mem, max_eq_right, max_eq_left]
  have h2 : buildQuarterlyProforma c6tbl "CPH" 0 = .ok [c6profX, c6profY] := by
    norm_num +decide [c6tbl, normalizeInput, normalizeRowPass1, computeIssuerMcaps,
      groupKeys, groupedMcaps, filterP,
      issuersW, resolveIssuer, sLE, gGE, applyQuarterlyExceptions, quarterlyInitFixed,
      quarterlyRun, quarterlyStep, tentative, freeTotalRaw, sumVals, lookup, dinsert,
      keysOf, filterW, filterP, findP, List.insertionSort, List.orderedInsert, wGE, prGE,
      upper, distributeToConstituents, distRow, proformaRowOf, proformaCurrWU,
      proformaCurrWC, buildQuarterlyProforma, buildQuarterlyProformaUnrounded,
      roundProformaRow, roundTo, roundHalfEven, Except.map, c6profX, c6profY,
      List.dedup_nil, List.dedup_cons_of_mem, List.dedup_cons_of_not_mem,
      max_eq_right, max_eq_left]
  exact ⟨h1,
    ((C10_outputs_rounded_to_fixed_decimals c6tbl "CPH" false 0).1 _ h1 c6statusX
      (List.mem_cons_self _ _)).1,
    h2,
    ((C10_outputs_rounded_to_fixed_decimals c6tbl "CPH" false 0).2 _ h2 c6profX
      (List.mem_cons_self _ _)).2.2.1⟩

end VaReport
